import Mathlib

/-!
Verification of the u-schedule scheduling library core.

This file gives a shallow embedding, in Lean 4, of the parts of the
u-schedule Rust crate that the verified properties talk about:

* the domain model (`Task`, `Activity`, `Resource`, `TransitionMatrix`,
  `Schedule`, `Assignment`) from `src/models/`;
* the input validator with its DFS cycle detection from `src/validation.rs`;
* the greedy list scheduler from `src/scheduler/simple.rs`;
* the GA chromosome operators from `src/ga/chromosome.rs` and the GA
  problem adapter (semi-active decoder, fitness) from `src/ga/problem.rs`;
* the dispatching rule engine from `src/dispatching/engine.rs` and the
  EDD rule from `src/dispatching/rules/mod.rs`;
* the CP model builder from `src/cp/mod.rs`.

Machine integers (`i64`) are modelled as `Int`; `f64` values that only
carry exact arithmetic (weights, scores, deadlines) are modelled as `Rat`,
except where the distinction between `f64::MAX` and `f64::INFINITY`
matters, where a dedicated sum type `F64` is used.  Hash maps keyed by
strings are modelled as association lists with insert-replaces-existing
semantics, or directly as functions `String → Option _` where only lookup
is used; hash sets are modelled as lists with membership.
-/

namespace USchedule

/-- Duration triple of an activity (`ActivityDuration` in `models/activity.rs`). -/
structure ActivityDuration where
  setup_ms : Int
  process_ms : Int
  teardown_ms : Int
deriving DecidableEq, Repr

/-- `ActivityDuration::fixed`: setup = 0, teardown = 0. -/
def ActivityDuration.fixed (process_ms : Int) : ActivityDuration :=
  ⟨0, process_ms, 0⟩

/-- `ActivityDuration::total_ms`. -/
def ActivityDuration.total_ms (d : ActivityDuration) : Int :=
  d.setup_ms + d.process_ms + d.teardown_ms

/-- A resource requirement (`ResourceRequirement` in `models/activity.rs`).
Only the fields consumed by the verified code paths are carried. -/
structure ResourceRequirement where
  resource_type : String
  quantity : Int
  candidates : List String
deriving DecidableEq, Repr

/-- An activity (`Activity` in `models/activity.rs`). -/
structure Activity where
  id : String
  task_id : String
  sequence : Int
  duration : ActivityDuration
  resource_requirements : List ResourceRequirement
  predecessors : List String
deriving DecidableEq, Repr

/-- `Activity::candidate_resources`: all candidate resource ids flattened
across all requirements, in order. -/
def Activity.candidate_resources (a : Activity) : List String :=
  a.resource_requirements.flatMap (fun r => r.candidates)

/-- A task (`Task` in `models/task.rs`). -/
structure Task where
  id : String
  category : String
  priority : Int
  deadline : Option Int
  release_time : Option Int
  activities : List Activity
deriving DecidableEq, Repr

/-- `Task::total_duration_ms`. -/
def Task.total_duration_ms (t : Task) : Int :=
  (t.activities.map (fun a => a.duration.total_ms)).sum

/-- A resource (`Resource` in `models/resource.rs`); only the fields the
verified code paths consume are carried. -/
structure Resource where
  id : String
  capacity : Int
deriving DecidableEq, Repr

/-- Sequence-dependent setup matrix (`TransitionMatrix` in
`models/constraint.rs`).  The `(from, to) → ms` hash map is modelled as an
association list in which `set_transition` replaces an existing entry. -/
structure TransitionMatrix where
  name : String
  resource_id : String
  transitions : List ((String × String) × Int)
  default_ms : Int
deriving DecidableEq, Repr

/-- `TransitionMatrix::new`. -/
def TransitionMatrix.new (name resource_id : String) : TransitionMatrix :=
  ⟨name, resource_id, [], 0⟩

/-- `TransitionMatrix::with_default`. -/
def TransitionMatrix.with_default (m : TransitionMatrix) (default_ms : Int) :
    TransitionMatrix :=
  { m with default_ms := default_ms }

/-- `TransitionMatrix::set_transition` (hash-map insert: replaces any
existing entry for the key). -/
def TransitionMatrix.set_transition (m : TransitionMatrix)
    (f t : String) (time_ms : Int) : TransitionMatrix :=
  { m with transitions :=
      m.transitions.filter (fun e => e.1 ≠ (f, t)) ++ [((f, t), time_ms)] }

/-- Lookup of an explicit entry in the transitions map. -/
def TransitionMatrix.lookupEntry (m : TransitionMatrix) (f t : String) :
    Option Int :=
  (m.transitions.find? (fun e => e.1 = (f, t))).map (fun e => e.2)

/-- `TransitionMatrix::get_transition`: the explicit entry if defined,
otherwise 0 for same categories and the default for distinct categories. -/
def TransitionMatrix.get_transition (m : TransitionMatrix) (f t : String) :
    Int :=
  if f = t then
    (m.lookupEntry f t).getD 0
  else
    (m.lookupEntry f t).getD m.default_ms

/-- `TransitionMatrixCollection` (`models/constraint.rs`): matrices indexed
by resource id, modelled as an association list where `add` replaces an
existing matrix for the same resource. -/
structure TransitionMatrixCollection where
  matrices : List TransitionMatrix
deriving DecidableEq, Repr

/-- `TransitionMatrixCollection::new`. -/
def TransitionMatrixCollection.new : TransitionMatrixCollection := ⟨[]⟩

/-- `TransitionMatrixCollection::add` (hash-map insert keyed by
`matrix.resource_id`). -/
def TransitionMatrixCollection.add (c : TransitionMatrixCollection)
    (m : TransitionMatrix) : TransitionMatrixCollection :=
  ⟨c.matrices.filter (fun x => x.resource_id ≠ m.resource_id) ++ [m]⟩

/-- `TransitionMatrixCollection::with_matrix`. -/
def TransitionMatrixCollection.with_matrix (c : TransitionMatrixCollection)
    (m : TransitionMatrix) : TransitionMatrixCollection :=
  c.add m

/-- `TransitionMatrixCollection::get_transition_time`: 0 when no matrix
exists for the resource. -/
def TransitionMatrixCollection.get_transition_time
    (c : TransitionMatrixCollection) (resource_id f t : String) : Int :=
  match c.matrices.find? (fun m => m.resource_id = resource_id) with
  | some m => m.get_transition f t
  | none => 0

/-- An assignment (`Assignment` in `models/schedule.rs`). -/
structure Assignment where
  activity_id : String
  task_id : String
  resource_id : String
  start_ms : Int
  end_ms : Int
  setup_ms : Int
deriving DecidableEq, Repr

/-- `Assignment::new` (setup 0). -/
def Assignment.new (activity_id task_id resource_id : String)
    (start_ms end_ms : Int) : Assignment :=
  ⟨activity_id, task_id, resource_id, start_ms, end_ms, 0⟩

/-- `Assignment::with_setup`. -/
def Assignment.with_setup (a : Assignment) (setup_ms : Int) : Assignment :=
  { a with setup_ms := setup_ms }

/-- A schedule (`Schedule` in `models/schedule.rs`).  The `violations` list
is omitted: none of the verified code paths ever adds a violation. -/
structure Schedule where
  assignments : List Assignment
deriving DecidableEq, Repr

/-- `Schedule::new`. -/
def Schedule.new : Schedule := ⟨[]⟩

/-- `Schedule::add_assignment`. -/
def Schedule.add_assignment (s : Schedule) (a : Assignment) : Schedule :=
  ⟨s.assignments ++ [a]⟩

/-- `Schedule::makespan_ms`: latest end time, 0 when empty. -/
def Schedule.makespan_ms (s : Schedule) : Int :=
  ((s.assignments.map (fun a => a.end_ms)).max?).getD 0

/-- `Schedule::assignment_for_activity`. -/
def Schedule.assignment_for_activity (s : Schedule) (activity_id : String) :
    Option Assignment :=
  s.assignments.find? (fun a => a.activity_id = activity_id)

/-- `Schedule::assignments_for_task`. -/
def Schedule.assignments_for_task (s : Schedule) (task_id : String) :
    List Assignment :=
  s.assignments.filter (fun a => a.task_id = task_id)

/-- `Schedule::assignments_for_resource`. -/
def Schedule.assignments_for_resource (s : Schedule) (resource_id : String) :
    List Assignment :=
  s.assignments.filter (fun a => a.resource_id = resource_id)

/-- `Schedule::task_completion_time`: latest end among the task's
assignments, `none` when it has none. -/
def Schedule.task_completion_time (s : Schedule) (task_id : String) :
    Option Int :=
  ((s.assignments_for_task task_id).map (fun a => a.end_ms)).max?

/-! ## Greedy list scheduler (`src/scheduler/simple.rs`) -/

/-- Pointwise update of a string-keyed partial map (`HashMap::insert`). -/
def updateFn {α : Type} (f : String → Option α) (k : String) (v : α) :
    String → Option α :=
  fun x => if x = k then some v else f x

/-- The mutable state of `SimpleScheduler::schedule`: per-resource
availability (`resource_available`) and per-resource last processed
category (`last_category`). -/
structure SchedState where
  avail : String → Option Int
  lastCat : String → Option String

/-- The candidate-selection loop of `SimpleScheduler::schedule`: among the
candidates that exist in `resource_available`, pick the one with the
smallest `max(available, task_start)`, first encounter winning ties.
The accumulator mirrors `best_resource` / `best_start` (the `i64::MAX`
sentinel becomes `none`). -/
def chooseBestGo (avail : String → Option Int) (taskStart : Int) :
    List String → Option (String × Int) → Option (String × Int)
  | [], best => best
  | c :: cs, best =>
    match avail c with
    | none => chooseBestGo avail taskStart cs best
    | some av =>
      let s := max av taskStart
      match best with
      | none => chooseBestGo avail taskStart cs (some (c, s))
      | some b =>
        if s < b.2 then chooseBestGo avail taskStart cs (some (c, s))
        else chooseBestGo avail taskStart cs best

/-- Entry point of the candidate-selection loop. -/
def chooseBest (avail : String → Option Int) (taskStart : Int)
    (candidates : List String) : Option (String × Int) :=
  chooseBestGo avail taskStart candidates none

/-- One iteration of the per-activity loop body of
`SimpleScheduler::schedule`: pick a resource, compute the setup time from
the transition matrices, emit the assignment and update the state.
Returns `(emitted?, new state, new task_start)`. -/
def scheduleActivity (matrices : TransitionMatrixCollection) (task : Task)
    (act : Activity) (st : SchedState) (taskStart : Int) :
    Option Assignment × SchedState × Int :=
  let candidates := act.candidate_resources
  if candidates = [] then (none, st, taskStart)
  else
    match chooseBest st.avail taskStart candidates with
    | none => (none, st, taskStart)
    | some (r, bestStart) =>
      let setup : Int :=
        match st.lastCat r with
        | some prevCat => matrices.get_transition_time r prevCat task.category
        | none => 0
      let endMs := bestStart + setup + act.duration.process_ms
      let a := (Assignment.new act.id task.id r bestStart endMs).with_setup setup
      (some a,
       ⟨updateFn st.avail r endMs, updateFn st.lastCat r task.category⟩,
       endMs)

/-- The per-activity loop of `SimpleScheduler::schedule` over one task's
activity list, threading the state and `task_start`. -/
def scheduleTaskGo (matrices : TransitionMatrixCollection) (task : Task) :
    List Activity → SchedState → Int → List Assignment × SchedState
  | [], st, _ => ([], st)
  | act :: rest, st, taskStart =>
    match scheduleActivity matrices task act st taskStart with
    | (none, st2, ts2) => scheduleTaskGo matrices task rest st2 ts2
    | (some a, st2, ts2) =>
      let out := scheduleTaskGo matrices task rest st2 ts2
      (a :: out.1, out.2)

/-- The per-task loop of `SimpleScheduler::schedule`: each task starts at
`max(release_time.unwrap_or(start_time_ms), start_time_ms)`. -/
def scheduleCoreGo (matrices : TransitionMatrixCollection) (startTime : Int) :
    List Task → SchedState → List Assignment
  | [], _ => []
  | t :: rest, st =>
    let ts0 := max (t.release_time.getD startTime) startTime
    let out := scheduleTaskGo matrices t t.activities st ts0
    out.1 ++ scheduleCoreGo matrices startTime rest out.2

/-- Initial `resource_available` map: every listed resource at
`start_time_ms`. -/
def initAvail (resources : List Resource) (startTime : Int) :
    String → Option Int :=
  resources.foldl (fun f r => updateFn f r.id startTime) (fun _ => none)

/-- The body of `SimpleScheduler::schedule` applied to an already ordered
task list (the loop `for &task_idx in &task_order`). -/
def scheduleCore (matrices : TransitionMatrixCollection)
    (orderedTasks : List Task) (resources : List Resource)
    (startTime : Int) : Schedule :=
  ⟨scheduleCoreGo matrices startTime orderedTasks
    ⟨initAvail resources startTime, fun _ => none⟩⟩

/-- Three-way comparison on `Int` (`i64::cmp`). -/
def cmpInt (x y : Int) : Ordering :=
  if x < y then .lt else if x = y then .eq else .gt

/-- Stable insertion used to model Rust's stable `sort_by`: `x` goes in
front of the first element it does not compare `Greater` to. -/
def stableInsertBy {α : Type} (cmp : α → α → Ordering) (x : α) :
    List α → List α
  | [] => [x]
  | y :: ys =>
    if cmp x y = .gt then y :: stableInsertBy cmp x ys else x :: y :: ys

/-- Stable sort by a three-way comparator, modelling `slice::sort_by`
(for a comparator that induces a total preorder every stable sort yields
the same list). -/
def stableSortBy {α : Type} (cmp : α → α → Ordering) : List α → List α
  | [] => []
  | x :: xs => stableInsertBy cmp x (stableSortBy cmp xs)

/-- `SimpleScheduler::sort_tasks` without a rule engine: stable sort by
descending priority (comparator `tasks[b].priority.cmp(&tasks[a].priority)`),
expressed directly on the task list rather than on indices. -/
def sort_tasks (tasks : List Task) : List Task :=
  stableSortBy (fun a b => cmpInt b.priority a.priority) tasks

/-- `SimpleScheduler` without a rule engine. -/
structure SimpleScheduler where
  transition_matrices : TransitionMatrixCollection

/-- `SimpleScheduler::schedule` (rule engine absent: tasks ordered by
descending priority, stable). -/
def SimpleScheduler.schedule (s : SimpleScheduler) (tasks : List Task)
    (resources : List Resource) (startTime : Int) : Schedule :=
  scheduleCore s.transition_matrices (sort_tasks tasks) resources startTime

/-! ### Structural lemmas about the greedy scheduler -/

theorem chooseBestGo_spec (avail : String → Option Int) (ts : Int) :
    ∀ (cands : List String) (best : Option (String × Int)),
    (∀ r s, best = some (r, s) → ∃ av, avail r = some av ∧ s = max av ts) →
    ∀ r s, chooseBestGo avail ts cands best = some (r, s) →
      ∃ av, avail r = some av ∧ s = max av ts := by
  intro cands
  induction cands with
  | nil => intro best hb r s h; exact hb r s h
  | cons c cs ih =>
    intro best hb r s h
    rw [chooseBestGo] at h
    split at h
    · exact ih best hb r s h
    · rename_i av hc
      split at h
      · refine ih _ ?_ r s h
        intro r1 s1 h1
        obtain ⟨rfl, rfl⟩ : c = r1 ∧ max av ts = s1 := by simpa using h1
        exact ⟨av, hc, rfl⟩
      · rename_i b
        simp only [] at h
        split at h
        · refine ih _ ?_ r s h
          intro r1 s1 h1
          obtain ⟨rfl, rfl⟩ : c = r1 ∧ max av ts = s1 := by simpa using h1
          exact ⟨av, hc, rfl⟩
        · exact ih _ hb r s h

theorem chooseBest_spec {avail : String → Option Int} {ts : Int}
    {cands : List String} {r : String} {s : Int}
    (h : chooseBest avail ts cands = some (r, s)) :
    ∃ av, avail r = some av ∧ s = max av ts := by
  exact chooseBestGo_spec avail ts cands none (by simp) r s h

theorem scheduleActivity_none {m : TransitionMatrixCollection} {t : Task}
    {act : Activity} {st st2 : SchedState} {ts ts2 : Int}
    (h : scheduleActivity m t act st ts = (none, st2, ts2)) :
    st2 = st ∧ ts2 = ts := by
  simp only [scheduleActivity] at h
  split at h
  · obtain ⟨h1, h2⟩ : st = st2 ∧ ts = ts2 := by simpa using h
    exact ⟨h1.symm, h2.symm⟩
  · split at h
    · obtain ⟨h1, h2⟩ : st = st2 ∧ ts = ts2 := by simpa using h
      exact ⟨h1.symm, h2.symm⟩
    · simp at h

theorem scheduleActivity_some {m : TransitionMatrixCollection} {t : Task}
    {act : Activity} {st st2 : SchedState} {ts ts2 : Int} {a : Assignment}
    (h : scheduleActivity m t act st ts = (some a, st2, ts2)) :
    ∃ av, st.avail a.resource_id = some av ∧
      a.start_ms = max av ts ∧
      a.activity_id = act.id ∧ a.task_id = t.id ∧
      a.setup_ms = (match st.lastCat a.resource_id with
        | some p => m.get_transition_time a.resource_id p t.category
        | none => 0) ∧
      a.end_ms = a.start_ms + a.setup_ms + act.duration.process_ms ∧
      st2 = ⟨updateFn st.avail a.resource_id a.end_ms,
             updateFn st.lastCat a.resource_id t.category⟩ ∧
      ts2 = a.end_ms := by
  simp only [scheduleActivity] at h
  split at h
  · simp at h
  · split at h
    · simp at h
    · rename_i r s hcb
      obtain ⟨av, hav, hs⟩ := chooseBest_spec hcb
      simp only [Assignment.new, Assignment.with_setup, Prod.ext_iff] at h
      obtain ⟨h1, h2, h3⟩ := h
      obtain rfl : a = ⟨act.id, t.id, r, s, _, _⟩ := (Option.some.injEq .. ▸ h1).symm
      exact ⟨av, hav, hs, rfl, rfl, rfl, rfl, h2.symm, h3.symm⟩

theorem scheduleTaskGo_chain (m : TransitionMatrixCollection) (t : Task) :
    ∀ (acts : List Activity) (st : SchedState) (ts : Int),
    List.Chain' (fun x y => x.end_ms ≤ y.start_ms)
      (scheduleTaskGo m t acts st ts).1 ∧
    (∀ a0, (scheduleTaskGo m t acts st ts).1.head? = some a0 →
      ts ≤ a0.start_ms) := by
  intro acts
  induction acts with
  | nil => intro st ts; simp [scheduleTaskGo]
  | cons act rest ih =>
    intro st ts
    rcases hstep : scheduleActivity m t act st ts with ⟨oa, st2, ts2⟩
    cases oa with
    | none =>
      obtain ⟨rfl, rfl⟩ := scheduleActivity_none hstep
      simp only [scheduleTaskGo, hstep]
      exact ih _ _
    | some a =>
      obtain ⟨av, hav, hs, -, -, -, hend, -, hts2⟩ := scheduleActivity_some hstep
      simp only [scheduleTaskGo, hstep]
      constructor
      · rw [List.chain'_cons']
        refine ⟨?_, (ih st2 ts2).1⟩
        intro y hy
        have h1 := (ih st2 ts2).2 y hy
        exact hts2 ▸ h1
      · intro a0 h0
        simp only [List.head?_cons, Option.some.injEq] at h0
        subst h0
        rw [hs]
        exact le_max_right av ts

theorem scheduleTaskGo_task_id (m : TransitionMatrixCollection) (t : Task) :
    ∀ (acts : List Activity) (st : SchedState) (ts : Int),
    ∀ a ∈ (scheduleTaskGo m t acts st ts).1, a.task_id = t.id := by
  intro acts
  induction acts with
  | nil => intro st ts a ha; simp [scheduleTaskGo] at ha
  | cons act rest ih =>
    intro st ts a ha
    rcases hstep : scheduleActivity m t act st ts with ⟨oa, st2, ts2⟩
    cases oa with
    | none =>
      rw [scheduleTaskGo, hstep] at ha
      exact ih st2 ts2 a ha
    | some b =>
      rw [scheduleTaskGo, hstep] at ha
      simp only [List.mem_cons] at ha
      rcases ha with rfl | ha
      · obtain ⟨-, -, -, -, htid, -⟩ := scheduleActivity_some hstep
        exact htid
      · exact ih st2 ts2 a ha

theorem scheduleCoreGo_task_ids (m : TransitionMatrixCollection)
    (startTime : Int) :
    ∀ (tasks : List Task) (st : SchedState),
    ∀ a ∈ scheduleCoreGo m startTime tasks st,
      a.task_id ∈ tasks.map Task.id := by
  intro tasks
  induction tasks with
  | nil => intro st a ha; simp [scheduleCoreGo] at ha
  | cons t rest ih =>
    intro st a ha
    rw [scheduleCoreGo] at ha
    simp only [List.mem_append] at ha
    simp only [List.map_cons, List.mem_cons]
    rcases ha with ha | ha
    · exact Or.inl (scheduleTaskGo_task_id m t t.activities st _ a ha)
    · exact Or.inr (ih _ a ha)

theorem scheduleCoreGo_filter_chain (m : TransitionMatrixCollection)
    (startTime : Int) (tid : String) :
    ∀ (tasks : List Task) (st : SchedState),
    (tasks.map Task.id).Nodup →
    List.Chain' (fun x y => x.end_ms ≤ y.start_ms)
      ((scheduleCoreGo m startTime tasks st).filter
        (fun a => a.task_id = tid)) := by
  intro tasks
  induction tasks with
  | nil => intro st hnd; simp [scheduleCoreGo]
  | cons t rest ih =>
    intro st hnd
    simp only [List.map_cons, List.nodup_cons] at hnd
    rw [scheduleCoreGo, List.filter_append]
    by_cases hid : t.id = tid
    · have hblock :
          ((scheduleTaskGo m t t.activities st
              (max (t.release_time.getD startTime) startTime)).1.filter
            (fun a => a.task_id = tid)) =
          (scheduleTaskGo m t t.activities st
              (max (t.release_time.getD startTime) startTime)).1 := by
        apply List.filter_eq_self.mpr
        intro a ha
        have := scheduleTaskGo_task_id m t t.activities st _ a ha
        simp [this, hid]
      have hrest : ∀ st3 : SchedState,
          ((scheduleCoreGo m startTime rest st3).filter
            (fun a => a.task_id = tid)) = [] := by
        intro st3
        apply List.filter_eq_nil_iff.mpr
        intro a ha
        have hmem := scheduleCoreGo_task_ids m startTime rest st3 a ha
        simp only [decide_eq_true_eq]
        intro hcontra
        rw [hcontra] at hmem
        rw [hid] at hnd
        exact hnd.1 hmem
      rw [hblock, hrest _, List.append_nil]
      exact (scheduleTaskGo_chain m t t.activities st _).1
    · have hblock :
          ((scheduleTaskGo m t t.activities st
              (max (t.release_time.getD startTime) startTime)).1.filter
            (fun a => a.task_id = tid)) = [] := by
        apply List.filter_eq_nil_iff.mpr
        intro a ha
        have := scheduleTaskGo_task_id m t t.activities st _ a ha
        simp [this, hid]
      rw [hblock, List.nil_append]
      exact ih _ hnd.2

theorem stableInsertBy_perm {α : Type} (cmp : α → α → Ordering) (x : α) :
    ∀ l : List α, (stableInsertBy cmp x l).Perm (x :: l) := by
  intro l
  induction l with
  | nil => simp [stableInsertBy]
  | cons y ys ih =>
    rw [stableInsertBy]
    split
    · exact (ih.cons y).trans (List.Perm.swap x y ys)
    · exact List.Perm.refl _

theorem stableSortBy_perm {α : Type} (cmp : α → α → Ordering) :
    ∀ l : List α, (stableSortBy cmp l).Perm l := by
  intro l
  induction l with
  | nil => simp [stableSortBy]
  | cons x xs ih =>
    rw [stableSortBy]
    exact (stableInsertBy_perm cmp x _).trans (ih.cons x)

/-! ### Concrete example inputs used by witnesses -/

/-- A two-activity task on machine M1. -/
def exTask1 : Task :=
  { id := "J1", category := "A", priority := 5, deadline := none,
    release_time := none,
    activities :=
      [{ id := "O1", task_id := "J1", sequence := 0,
         duration := ActivityDuration.fixed 1000,
         resource_requirements := [⟨"Machine", 1, ["M1"]⟩],
         predecessors := [] },
       { id := "O2", task_id := "J1", sequence := 1,
         duration := ActivityDuration.fixed 2000,
         resource_requirements := [⟨"Machine", 1, ["M1"]⟩],
         predecessors := [] }] }

/-- A one-activity task on machine M1. -/
def exTask2 : Task :=
  { id := "J2", category := "B", priority := 3, deadline := none,
    release_time := none,
    activities :=
      [{ id := "O3", task_id := "J2", sequence := 0,
         duration := ActivityDuration.fixed 1500,
         resource_requirements := [⟨"Machine", 1, ["M1"]⟩],
         predecessors := [] }] }

/-- Example task list. -/
def exTasks : List Task := [exTask1, exTask2]

/-- Example resource list. -/
def exResources : List Resource := [⟨"M1", 1⟩]

/-- C2: for every schedule produced by the greedy list scheduler
(`SimpleScheduler::schedule`, here both for an arbitrary processed task
order via `scheduleCore` and for the default descending-priority order via
`SimpleScheduler.schedule`), and every task identifier `tid`, consecutive
emitted assignments of that task satisfy that the start time of each
assignment is at least the end time of the previous one, provided task
identifiers are pairwise distinct. -/
theorem greedy_intra_task_precedence
    (matrices : TransitionMatrixCollection) (startTime : Int) (tid : String) :
    (∀ (orderedTasks : List Task) (resources : List Resource),
      (orderedTasks.map Task.id).Nodup →
      List.Chain' (fun x y => x.end_ms ≤ y.start_ms)
        ((scheduleCore matrices orderedTasks resources
            startTime).assignments_for_task tid)) ∧
    (∀ (s : SimpleScheduler) (tasks : List Task) (resources : List Resource),
      (tasks.map Task.id).Nodup →
      List.Chain' (fun x y => x.end_ms ≤ y.start_ms)
        ((s.schedule tasks resources startTime).assignments_for_task tid)) := by
  constructor
  · intro orderedTasks resources hnd
    exact scheduleCoreGo_filter_chain matrices startTime tid orderedTasks
      ⟨initAvail resources startTime, fun _ => none⟩ hnd
  · intro s tasks resources hnd
    have hperm : ((sort_tasks tasks).map Task.id).Perm (tasks.map Task.id) :=
      (stableSortBy_perm _ tasks).map Task.id
    exact scheduleCoreGo_filter_chain s.transition_matrices startTime tid
      (sort_tasks tasks) ⟨initAvail resources startTime, fun _ => none⟩
      (hperm.nodup_iff.mpr hnd)

/-- Witness for C2 at a concrete input. -/
theorem greedy_intra_task_precedence_witness :
    (exTasks.map Task.id).Nodup ∧
    List.Chain' (fun x y => x.end_ms ≤ y.start_ms)
      (((SimpleScheduler.mk TransitionMatrixCollection.new).schedule
          exTasks exResources 0).assignments_for_task "J1") :=
  ⟨by decide,
   (greedy_intra_task_precedence TransitionMatrixCollection.new 0 "J1").2
     (SimpleScheduler.mk TransitionMatrixCollection.new) exTasks exResources
     (by decide)⟩

/-! ### Resource disjointness for the greedy scheduler -/

/-- All setup times representable in a transition matrix collection are
non-negative (the data-model invariant that durations are non-negative). -/
def MatricesNonneg (c : TransitionMatrixCollection) : Prop :=
  ∀ m ∈ c.matrices, 0 ≤ m.default_ms ∧ ∀ e ∈ m.transitions, 0 ≤ e.2

/-- All activities of the given tasks have non-negative processing time
(the data-model invariant). -/
def DurationsNonneg (tasks : List Task) : Prop :=
  ∀ t ∈ tasks, ∀ act ∈ t.activities, 0 ≤ act.duration.process_ms

instance : DecidablePred MatricesNonneg := by
  intro c
  unfold MatricesNonneg
  infer_instance

instance : DecidablePred DurationsNonneg := by
  intro tasks
  unfold DurationsNonneg
  infer_instance

theorem get_transition_time_nonneg {c : TransitionMatrixCollection}
    (hc : MatricesNonneg c) (r f t : String) :
    0 ≤ c.get_transition_time r f t := by
  rw [TransitionMatrixCollection.get_transition_time]
  split
  · rename_i m hm
    have hmem : m ∈ c.matrices := List.mem_of_find?_eq_some hm
    obtain ⟨hdef, hent⟩ := hc m hmem
    rw [TransitionMatrix.get_transition]
    cases he : m.lookupEntry f t with
    | none =>
      split
      · exact le_refl 0
      · exact hdef
    | some v =>
      have hv : 0 ≤ v := by
        rw [TransitionMatrix.lookupEntry] at he
        cases hf : m.transitions.find? (fun e => e.1 = (f, t)) with
        | none => rw [hf] at he; simp at he
        | some e =>
          rw [hf] at he
          simp at he
          exact he ▸ hent e (List.mem_of_find?_eq_some hf)
      split
      · exact hv
      · exact hv
  · exact le_refl 0

/-- Every already emitted assignment ends no later than the recorded
availability of its resource. -/
def AvailBounds (as : List Assignment) (st : SchedState) : Prop :=
  ∀ a ∈ as, ∃ av, st.avail a.resource_id = some av ∧ a.end_ms ≤ av

theorem scheduleActivity_avail_step {m : TransitionMatrixCollection}
    {t : Task} {act : Activity} {st st2 : SchedState} {ts ts2 : Int}
    {a : Assignment} (hm : MatricesNonneg m)
    (hproc : 0 ≤ act.duration.process_ms)
    (h : scheduleActivity m t act st ts = (some a, st2, ts2))
    {prior : List Assignment} (hab : AvailBounds prior st) :
    AvailBounds (prior ++ [a]) st2 ∧
    (∀ b ∈ prior, b.resource_id = a.resource_id →
      b.end_ms ≤ a.start_ms) := by
  obtain ⟨av, hav, hs, -, -, hsetup, hend, hst2, -⟩ := scheduleActivity_some h
  have hsetup_nn : 0 ≤ a.setup_ms := by
    rw [hsetup]
    cases st.lastCat a.resource_id with
    | none => exact le_refl 0
    | some p => exact get_transition_time_nonneg hm _ _ _
  have hstart_ge_av : av ≤ a.start_ms := hs ▸ le_max_left av ts
  have hend_ge_start : a.start_ms ≤ a.end_ms := by omega
  have hprior_le : ∀ b ∈ prior, b.resource_id = a.resource_id →
      b.end_ms ≤ a.start_ms := by
    intro b hb hres
    obtain ⟨avb, havb, hble⟩ := hab b hb
    rw [hres, hav] at havb
    have heq : av = avb := by injection havb
    omega
  refine ⟨?_, hprior_le⟩
  intro b hb
  rw [List.mem_append] at hb
  rcases hb with hb | hb
  · by_cases hres : b.resource_id = a.resource_id
    · refine ⟨a.end_ms, ?_, ?_⟩
      · rw [hst2]; simp [updateFn, hres]
      · have := hprior_le b hb hres
        omega
    · obtain ⟨avb, havb, hble⟩ := hab b hb
      refine ⟨avb, ?_, hble⟩
      rw [hst2]
      simpa [updateFn, hres] using havb
  · simp only [List.mem_singleton] at hb
    subst hb
    refine ⟨b.end_ms, ?_, le_refl _⟩
    rw [hst2]; simp [updateFn]

theorem scheduleTaskGo_pairwise {m : TransitionMatrixCollection} {t : Task}
    (hm : MatricesNonneg m) :
    ∀ (acts : List Activity) (st : SchedState) (ts : Int)
      (prior : List Assignment),
    (∀ act ∈ acts, 0 ≤ act.duration.process_ms) →
    AvailBounds prior st →
    List.Pairwise (fun x y => x.resource_id = y.resource_id →
      x.end_ms ≤ y.start_ms) prior →
    AvailBounds (prior ++ (scheduleTaskGo m t acts st ts).1)
      (scheduleTaskGo m t acts st ts).2 ∧
    List.Pairwise (fun x y => x.resource_id = y.resource_id →
      x.end_ms ≤ y.start_ms)
      (prior ++ (scheduleTaskGo m t acts st ts).1) := by
  intro acts
  induction acts with
  | nil => intro st ts prior hnn hab hpw; simpa [scheduleTaskGo] using ⟨hab, hpw⟩
  | cons act rest ih =>
    intro st ts prior hnn hab hpw
    rcases hstep : scheduleActivity m t act st ts with ⟨oa, st2, ts2⟩
    cases oa with
    | none =>
      obtain ⟨rfl, rfl⟩ := scheduleActivity_none hstep
      simp only [scheduleTaskGo, hstep]
      exact ih _ _ prior (fun x hx => hnn x (List.mem_cons_of_mem act hx))
        hab hpw
    | some a =>
      have hproc : 0 ≤ act.duration.process_ms := hnn act (List.mem_cons_self act rest)
      obtain ⟨hab2, hord⟩ := scheduleActivity_avail_step hm hproc hstep hab
      have hpw2 : List.Pairwise (fun x y => x.resource_id = y.resource_id →
          x.end_ms ≤ y.start_ms) (prior ++ [a]) := by
        rw [List.pairwise_append]
        refine ⟨hpw, List.pairwise_singleton _ _, ?_⟩
        intro x hx y hy
        simp only [List.mem_singleton] at hy
        subst hy
        exact hord x hx
      have := ih st2 ts2 (prior ++ [a])
        (fun x hx => hnn x (List.mem_cons_of_mem act hx)) hab2 hpw2
      simp only [scheduleTaskGo, hstep]
      simpa [List.append_assoc] using this

theorem scheduleCoreGo_pairwise {m : TransitionMatrixCollection}
    {startTime : Int} (hm : MatricesNonneg m) :
    ∀ (tasks : List Task) (st : SchedState) (prior : List Assignment),
    DurationsNonneg tasks →
    AvailBounds prior st →
    List.Pairwise (fun x y => x.resource_id = y.resource_id →
      x.end_ms ≤ y.start_ms) prior →
    List.Pairwise (fun x y => x.resource_id = y.resource_id →
      x.end_ms ≤ y.start_ms)
      (prior ++ scheduleCoreGo m startTime tasks st) := by
  intro tasks
  induction tasks with
  | nil => intro st prior hdur hab hpw; simpa [scheduleCoreGo] using hpw
  | cons t rest ih =>
    intro st prior hdur hab hpw
    have hstep := @scheduleTaskGo_pairwise m t hm t.activities st
      (max (t.release_time.getD startTime) startTime) prior
      (fun act hact => hdur t (List.mem_cons_self t rest) act hact) hab hpw
    have := ih (scheduleTaskGo m t t.activities st
        (max (t.release_time.getD startTime) startTime)).2
      (prior ++ (scheduleTaskGo m t t.activities st
        (max (t.release_time.getD startTime) startTime)).1)
      (fun x hx => hdur x (List.mem_cons_of_mem t hx)) hstep.1 hstep.2
    rw [scheduleCoreGo]
    simpa [List.append_assoc] using this

/-- C3: any two assignments placed on the same resource by the greedy list
scheduler occupy disjoint half-open intervals `[start_ms, end_ms)`, both
for an arbitrary processed task order (`scheduleCore`) and for the default
descending-priority order (`SimpleScheduler.schedule`), under the
data-model invariant that processing and setup times are non-negative. -/
theorem greedy_resource_disjointness
    (matrices : TransitionMatrixCollection) (startTime : Int) :
    (∀ (orderedTasks : List Task) (resources : List Resource),
      MatricesNonneg matrices →
      DurationsNonneg orderedTasks →
      List.Pairwise (fun x y => x.resource_id = y.resource_id →
        Disjoint (Set.Ico x.start_ms x.end_ms) (Set.Ico y.start_ms y.end_ms))
        (scheduleCore matrices orderedTasks resources startTime).assignments) ∧
    (∀ (tasks : List Task) (resources : List Resource),
      MatricesNonneg matrices →
      DurationsNonneg tasks →
      List.Pairwise (fun x y => x.resource_id = y.resource_id →
        Disjoint (Set.Ico x.start_ms x.end_ms) (Set.Ico y.start_ms y.end_ms))
        ((SimpleScheduler.mk matrices).schedule tasks resources
          startTime).assignments) := by
  have main : ∀ (orderedTasks : List Task) (resources : List Resource),
      MatricesNonneg matrices →
      DurationsNonneg orderedTasks →
      List.Pairwise (fun x y => x.resource_id = y.resource_id →
        Disjoint (Set.Ico x.start_ms x.end_ms) (Set.Ico y.start_ms y.end_ms))
        (scheduleCore matrices orderedTasks resources startTime).assignments := by
    intro orderedTasks resources hm hdur
    have h := @scheduleCoreGo_pairwise matrices startTime hm orderedTasks
      ⟨initAvail resources startTime, fun _ => none⟩ [] hdur
      (by intro a ha; simp at ha) List.Pairwise.nil
    rw [List.nil_append] at h
    refine h.imp ?_
    intro x y hxy hres
    have hle := hxy hres
    exact Set.Ico_disjoint_Ico.mpr
      (le_trans (min_le_left _ _) (le_trans hle (le_max_right _ _)))
  refine ⟨main, ?_⟩
  intro tasks resources hm hdur
  refine main (sort_tasks tasks) resources hm ?_
  intro t ht
  exact hdur t ((stableSortBy_perm _ tasks).mem_iff.mp ht)

/-- Witness for C3 at a concrete input. -/
theorem greedy_resource_disjointness_witness :
    MatricesNonneg TransitionMatrixCollection.new ∧
    DurationsNonneg exTasks ∧
    List.Pairwise (fun x y => x.resource_id = y.resource_id →
      Disjoint (Set.Ico x.start_ms x.end_ms) (Set.Ico y.start_ms y.end_ms))
      ((SimpleScheduler.mk TransitionMatrixCollection.new).schedule
        exTasks exResources 0).assignments :=
  ⟨by decide, by decide,
   (greedy_resource_disjointness TransitionMatrixCollection.new 0).2
     exTasks exResources (by decide) (by decide)⟩

/-! ### Setup attribution in the greedy scheduler -/

/-- The transition-matrix lookup rule exactly as the specification words
it: the explicit entry if present, else 0 for same categories, else the
matrix default for distinct categories, and 0 when no matrix exists for
the resource.  Defined for comparison against
`TransitionMatrixCollection.get_transition_time`. -/
def specTransitionLookup (c : TransitionMatrixCollection)
    (r prev cur : String) : Int :=
  match c.matrices.find? (fun m => m.resource_id = r) with
  | none => 0
  | some mat =>
    match mat.lookupEntry prev cur with
    | some v => v
    | none => if prev = cur then 0 else mat.default_ms

theorem get_transition_time_eq_spec (c : TransitionMatrixCollection)
    (r prev cur : String) :
    c.get_transition_time r prev cur = specTransitionLookup c r prev cur := by
  rw [TransitionMatrixCollection.get_transition_time, specTransitionLookup]
  cases c.matrices.find? (fun m => m.resource_id = r) with
  | none => rfl
  | some mat =>
    simp only [TransitionMatrix.get_transition]
    cases he : mat.lookupEntry prev cur with
    | none => split <;> rfl
    | some v => split <;> rfl

/-- C4: whenever the greedy scheduler emits an assignment (one step of the
activity loop, `scheduleActivity`), then: if the chosen resource has a
recorded previous category, the emitted `setup_ms` equals the
transition-matrix lookup for (resource, previous category, task category),
where the lookup returns the explicit entry if present, else 0 for same
categories, else the matrix default for distinct categories, and 0 when no
matrix exists for the resource; if the chosen resource has no recorded
previous category, `setup_ms` is 0; and in both cases
`end_ms − start_ms = setup_ms + process_ms`. -/
theorem greedy_setup_attribution {m : TransitionMatrixCollection} {t : Task}
    {act : Activity} {st st2 : SchedState} {ts ts2 : Int} {a : Assignment}
    (h : scheduleActivity m t act st ts = (some a, st2, ts2)) :
    (∀ prev, st.lastCat a.resource_id = some prev →
      a.setup_ms = m.get_transition_time a.resource_id prev t.category ∧
      a.setup_ms = specTransitionLookup m a.resource_id prev t.category) ∧
    (st.lastCat a.resource_id = none → a.setup_ms = 0) ∧
    a.end_ms - a.start_ms = a.setup_ms + act.duration.process_ms := by
  obtain ⟨av, hav, hs, -, -, hsetup, hend, -, -⟩ := scheduleActivity_some h
  refine ⟨?_, ?_, by omega⟩
  · intro prev hprev
    rw [hsetup, hprev]
    exact ⟨rfl, get_transition_time_eq_spec m a.resource_id prev t.category⟩
  · intro hnone
    rw [hsetup, hnone]

/-- Concrete transition matrix for the C4 witness: default 500,
explicit entry A→B = 1000, on resource M1. -/
def exMatrixAB : TransitionMatrix :=
  ((TransitionMatrix.new "changeover" "M1").with_default 500).set_transition
    "A" "B" 1000

/-- Concrete matrix collection for the C4 witness. -/
def exMatrices : TransitionMatrixCollection :=
  TransitionMatrixCollection.new.with_matrix exMatrixAB

/-- Concrete scheduler state for the C4 witness: M1 free at time 0 with
previous category A. -/
def exState : SchedState :=
  ⟨fun x => if x = "M1" then some 0 else none,
   fun x => if x = "M1" then some "A" else none⟩

/-- Witness for C4 at a concrete input: scheduling the first activity of
`exTask2` (category B) on M1 right after category A. -/
theorem greedy_setup_attribution_witness :
    (scheduleActivity exMatrices exTask2
        { id := "O3", task_id := "J2", sequence := 0,
          duration := ActivityDuration.fixed 1500,
          resource_requirements := [⟨"Machine", 1, ["M1"]⟩],
          predecessors := [] } exState 0).1 =
      some ⟨"O3", "J2", "M1", 0, 2500, 1000⟩ ∧
    ((∀ prev, exState.lastCat "M1" = some prev →
        (1000 : Int) = exMatrices.get_transition_time "M1" prev "B" ∧
        (1000 : Int) = specTransitionLookup exMatrices "M1" prev "B") ∧
     (exState.lastCat "M1" = none → (1000 : Int) = 0) ∧
     (2500 : Int) - 0 = 1000 + 1500) := by
  have hfst : (scheduleActivity exMatrices exTask2
      { id := "O3", task_id := "J2", sequence := 0,
        duration := ActivityDuration.fixed 1500,
        resource_requirements := [⟨"Machine", 1, ["M1"]⟩],
        predecessors := [] } exState 0).1 =
      some ⟨"O3", "J2", "M1", 0, 2500, 1000⟩ := by decide
  refine ⟨hfst, ?_⟩
  have h : scheduleActivity exMatrices exTask2
      { id := "O3", task_id := "J2", sequence := 0,
        duration := ActivityDuration.fixed 1500,
        resource_requirements := [⟨"Machine", 1, ["M1"]⟩],
        predecessors := [] } exState 0 =
      (some ⟨"O3", "J2", "M1", 0, 2500, 1000⟩,
       (scheduleActivity exMatrices exTask2
          { id := "O3", task_id := "J2", sequence := 0,
            duration := ActivityDuration.fixed 1500,
            resource_requirements := [⟨"Machine", 1, ["M1"]⟩],
            predecessors := [] } exState 0).2.1,
       (scheduleActivity exMatrices exTask2
          { id := "O3", task_id := "J2", sequence := 0,
            duration := ActivityDuration.fixed 1500,
            resource_requirements := [⟨"Machine", 1, ["M1"]⟩],
            predecessors := [] } exState 0).2.2) := by
    rw [← hfst]
  exact greedy_setup_attribution h

/-! ## Dispatching rules and rule engine (`src/dispatching/`) -/

/-- Scheduling context (`SchedulingContext` in `dispatching/context.rs`);
only the fields consumed by the verified rules are carried. -/
structure SchedulingContext where
  current_time_ms : Int
deriving DecidableEq, Repr

/-- `SchedulingContext::at_time`. -/
def SchedulingContext.at_time (current_time_ms : Int) : SchedulingContext :=
  ⟨current_time_ms⟩

/-- An `f64` value as far as the verified rules distinguish them: an exact
finite rational, or one of the two infinities.  `f64::MAX` is a *finite*
value of this type. -/
inductive F64 where
  | finite (q : ℚ)
  | inf
  | ninf
deriving DecidableEq, Repr

/-- The largest finite `f64`, `f64::MAX` = 2¹⁰²⁴ − 2⁹⁷¹, as an exact
rational. -/
def f64Max : ℚ := 2 ^ 1024 - 2 ^ 971

/-- `Edd::evaluate` (`dispatching/rules/mod.rs`):
`task.deadline.map(|d| d as f64).unwrap_or(f64::MAX)`. -/
def Edd.evaluate (task : Task) (_context : SchedulingContext) : F64 :=
  (task.deadline.map (fun d => F64.finite (d : ℚ))).getD (F64.finite f64Max)

/-- Counterexample to C9 as stated: on a concrete task without a deadline
the EDD score is the finite value `f64::MAX`, not positive infinity. -/
theorem edd_no_deadline_is_f64_max_not_inf :
    Edd.evaluate exTask1 (SchedulingContext.at_time 0) = F64.finite f64Max ∧
    Edd.evaluate exTask1 (SchedulingContext.at_time 0) ≠ F64.inf := by
  constructor
  · rfl
  · intro h
    simp [Edd.evaluate, exTask1] at h

/-- C9 amended: the EDD score equals the task's deadline (as a float) when
a deadline is present, and equals the largest finite `f64` value
(`f64::MAX`), which is distinct from +∞, when the task has no deadline. -/
theorem edd_score (task : Task) (context : SchedulingContext) :
    Edd.evaluate task context = (match task.deadline with
      | some d => F64.finite (d : ℚ)
      | none => F64.finite f64Max) ∧
    F64.finite f64Max ≠ F64.inf := by
  constructor
  · cases h : task.deadline with
    | none => simp [Edd.evaluate, h]
    | some d => simp [Edd.evaluate, h]
  · intro h; cases h

/-- Rule scores inside the engine: `f64` arithmetic on the finite scores
the comparison logic manipulates, idealised as exact rationals. -/
abbrev RuleScore := ℚ

/-- A dispatching rule paired with its weight (`WeightedRule` in
`dispatching/engine.rs`); the trait object is modelled as a function. -/
structure WeightedRule where
  rule : Task → SchedulingContext → RuleScore
  weight : ℚ

/-- `EvaluationMode` in `dispatching/engine.rs`. -/
inductive EvaluationMode where
  | Sequential
  | Weighted
deriving DecidableEq, Repr

/-- `TieBreaker` in `dispatching/engine.rs`. -/
inductive TieBreaker where
  | NextRule
  | ById
deriving DecidableEq, Repr

/-- `RuleEngine` in `dispatching/engine.rs`. -/
structure RuleEngine where
  rules : List WeightedRule
  mode : EvaluationMode
  tie_breaker : TieBreaker
  epsilon : ℚ

/-- `RuleEngine::new`: Sequential mode, NextRule tie breaker,
epsilon 1e-9. -/
def RuleEngine.new : RuleEngine :=
  ⟨[], .Sequential, .NextRule, 1 / 10 ^ 9⟩

/-- `RuleEngine::with_rule` (weight 1.0). -/
def RuleEngine.with_rule (e : RuleEngine)
    (rule : Task → SchedulingContext → RuleScore) : RuleEngine :=
  { e with rules := e.rules ++ [⟨rule, 1⟩] }

/-- `RuleEngine::with_weighted_rule`. -/
def RuleEngine.with_weighted_rule (e : RuleEngine)
    (rule : Task → SchedulingContext → RuleScore) (weight : ℚ) : RuleEngine :=
  { e with rules := e.rules ++ [⟨rule, weight⟩] }

/-- `RuleEngine::with_tie_breaker` (weight 0.0). -/
def RuleEngine.with_tie_breaker (e : RuleEngine)
    (rule : Task → SchedulingContext → RuleScore) : RuleEngine :=
  { e with rules := e.rules ++ [⟨rule, 0⟩] }

/-- `RuleEngine::with_mode`. -/
def RuleEngine.with_mode (e : RuleEngine) (mode : EvaluationMode) :
    RuleEngine :=
  { e with mode := mode }

/-- `RuleEngine::with_final_tie_breaker`. -/
def RuleEngine.with_final_tie_breaker (e : RuleEngine) (tb : TieBreaker) :
    RuleEngine :=
  { e with tie_breaker := tb }

/-- `partial_cmp` on finite scores (total on `ℚ`). -/
def qCmp (x y : ℚ) : Ordering :=
  if x < y then .lt else if x = y then .eq else .gt

/-- The rule loop of `RuleEngine::compare_sequential`: the first rule
whose scores differ by more than epsilon decides; exhaustion falls to the
final tie-breaker. -/
def compareSeqRules (epsilon : ℚ) (tb : TieBreaker) (a b : Task)
    (context : SchedulingContext) : List WeightedRule → Ordering
  | [] =>
    match tb with
    | .NextRule => .eq
    | .ById => compare a.id b.id
  | wr :: rest =>
    if |wr.rule a context - wr.rule b context| > epsilon then
      qCmp (wr.rule a context) (wr.rule b context)
    else compareSeqRules epsilon tb a b context rest

/-- `RuleEngine::compare_sequential`. -/
def RuleEngine.compare_sequential (e : RuleEngine) (a b : Task)
    (context : SchedulingContext) : Ordering :=
  compareSeqRules e.epsilon e.tie_breaker a b context e.rules

/-- `RuleEngine::weighted_score`. -/
def RuleEngine.weighted_score (e : RuleEngine) (task : Task)
    (context : SchedulingContext) : ℚ :=
  (e.rules.map (fun wr => wr.rule task context * wr.weight)).sum

instance : Inhabited Task :=
  ⟨⟨"", "", 0, none, none, []⟩⟩

/-- `RuleEngine::sort_indices`: indices 0..n stably sorted by the mode's
comparator (Rust's stable `sort_by` modelled by `stableSortBy`). -/
def RuleEngine.sort_indices (e : RuleEngine) (tasks : List Task)
    (context : SchedulingContext) : List Nat :=
  if tasks.isEmpty then []
  else
    match e.mode with
    | .Sequential =>
      stableSortBy
        (fun i j => e.compare_sequential (tasks.getD i default)
          (tasks.getD j default) context)
        (List.range tasks.length)
    | .Weighted =>
      let scores := tasks.map (fun t => e.weighted_score t context)
      stableSortBy (fun i j => qCmp (scores.getD i 0) (scores.getD j 0))
        (List.range tasks.length)

/-- C7: in Sequential mode, whenever the first rule's scores for two tasks
differ by more than epsilon = 1e-9, `compare_sequential` is decided by
that rule's scores (ascending) no matter what the remaining rules and the
final tie-breaker are, and `sort_indices` on the two tasks orders them
accordingly. -/
theorem sequential_first_rule_decides (e : RuleEngine) (wr1 : WeightedRule)
    (rest : List WeightedRule) (A B : Task)
    (context : SchedulingContext)
    (hrules : e.rules = wr1 :: rest) (hmode : e.mode = .Sequential)
    (heps : e.epsilon = 1 / 10 ^ 9)
    (hgap : |wr1.rule A context - wr1.rule B context| > 1 / 10 ^ 9) :
    e.compare_sequential A B context =
      qCmp (wr1.rule A context) (wr1.rule B context) ∧
    (wr1.rule A context < wr1.rule B context →
      e.compare_sequential A B context = .lt ∧
      e.sort_indices [A, B] context = [0, 1]) ∧
    (wr1.rule B context < wr1.rule A context →
      e.compare_sequential A B context = .gt ∧
      e.sort_indices [A, B] context = [1, 0]) := by
  have hcmp : e.compare_sequential A B context =
      qCmp (wr1.rule A context) (wr1.rule B context) := by
    rw [RuleEngine.compare_sequential, hrules, heps, compareSeqRules,
      if_pos hgap]
  have hsort : e.sort_indices [A, B] context =
      if e.compare_sequential A B context = .gt then [1, 0] else [0, 1] := by
    rw [RuleEngine.sort_indices, hmode, if_neg (by simp)]
    have hlen : ([A, B] : List Task).length = 2 := rfl
    have hrange : List.range 2 = [0, 1] := by decide
    rw [hlen, hrange]
    simp only [stableSortBy, stableInsertBy, List.getD_cons_zero,
      List.getD_cons_succ]
  refine ⟨hcmp, ?_, ?_⟩
  · intro hlt
    have : qCmp (wr1.rule A context) (wr1.rule B context) = .lt := by
      rw [qCmp, if_pos hlt]
    refine ⟨by rw [hcmp, this], ?_⟩
    rw [hsort, hcmp, this]
    simp
  · intro hgt
    have : qCmp (wr1.rule A context) (wr1.rule B context) = .gt := by
      rw [qCmp, if_neg (not_lt_of_gt hgt), if_neg (ne_of_gt hgt)]
    refine ⟨by rw [hcmp, this], ?_⟩
    rw [hsort, hcmp, this]
    simp

/-- Priority rule used in the C7 witness. -/
def exPriorityRule : Task → SchedulingContext → RuleScore :=
  fun t _ => (t.priority : ℚ)

/-- Engine used in the C7 witness: a primary rule plus a tie-breaker. -/
def exEngine : RuleEngine :=
  (RuleEngine.new.with_rule exPriorityRule).with_tie_breaker
    (fun t _ => (t.total_duration_ms : ℚ))

/-- Witness for C7 at a concrete input: the first rule strictly prefers
`exTask2` (score 3) to `exTask1` (score 5), so the two-task sort puts
index 1 first. -/
theorem sequential_first_rule_decides_witness :
    |exPriorityRule exTask1 (SchedulingContext.at_time 0) -
      exPriorityRule exTask2 (SchedulingContext.at_time 0)| > 1 / 10 ^ 9 ∧
    exEngine.sort_indices [exTask1, exTask2]
      (SchedulingContext.at_time 0) = [1, 0] := by
  have hgap : |exPriorityRule exTask1 (SchedulingContext.at_time 0) -
      exPriorityRule exTask2 (SchedulingContext.at_time 0)| >
      1 / 10 ^ 9 := by
    norm_num [exPriorityRule, exTask1, exTask2]
  refine ⟨hgap, ?_⟩
  have h := sequential_first_rule_decides exEngine
    ⟨exPriorityRule, 1⟩ [⟨fun t _ => (t.total_duration_ms : ℚ), 0⟩]
    exTask1 exTask2 (SchedulingContext.at_time 0)
    rfl rfl rfl hgap
  refine (h.2.2 ?_).2
  norm_num [exPriorityRule, exTask1, exTask2]

/-! ## GA problem adapter (`src/ga/problem.rs`) -/

/-- Association-list lookup (`HashMap::get`). -/
def assocGet {β : Type} (l : List (String × β)) (k : String) : Option β :=
  (l.find? (fun e => e.1 = k)).map (fun e => e.2)

/-- Association-list insert (`HashMap::insert`: replaces existing key). -/
def assocInsert {β : Type} (l : List (String × β)) (k : String) (v : β) :
    List (String × β) :=
  l.filter (fun e => e.1 ≠ k) ++ [(k, v)]

/-- Compact activity descriptor for the GA encoding (`ActivityInfo` in
`ga/problem.rs`).  Note that it carries no activity id. -/
structure ActivityInfo where
  task_id : String
  sequence : Int
  process_ms : Int
  candidates : List String
deriving DecidableEq, Repr

/-- `ActivityInfo::from_tasks`: one entry per activity, with 1-based
sequence. -/
def ActivityInfo.from_tasks (tasks : List Task) : List ActivityInfo :=
  tasks.flatMap (fun t =>
    t.activities.enum.map (fun p =>
      ⟨t.id, (p.1 : Int) + 1, p.2.duration.process_ms,
       p.2.candidate_resources⟩))

/-- OSV/MAV dual-vector chromosome (`ScheduleChromosome` in
`ga/chromosome.rs`).  The `(task_id, sequence) → index` hash map is an
association list; fitness is an `F64` so that the `f64::INFINITY` marker
is representable. -/
structure ScheduleChromosome where
  osv : List String
  mav : List String
  activity_index : List ((String × Int) × Nat)
  fitness : F64
deriving DecidableEq, Repr

/-- `ScheduleChromosome::decode_osv`: the k-th occurrence of task `T` in
the OSV yields `(T, k)` (1-based), tracked by a per-task counter. -/
def ScheduleChromosome.decode_osv (c : ScheduleChromosome) :
    List (String × Int) :=
  (c.osv.foldl
    (fun (acc : List (String × Int) × (String → Int)) task_id =>
      let k := acc.2 task_id + 1
      (acc.1 ++ [(task_id, k)],
       fun x => if x = task_id then k else acc.2 x))
    ([], fun _ => 0)).1

/-- `ScheduleChromosome::resource_for`. -/
def ScheduleChromosome.resource_for (c : ScheduleChromosome)
    (task_id : String) (sequence : Int) : Option String :=
  ((c.activity_index.find? (fun e => e.1 = (task_id, sequence))).map
    (fun e => e.2)).bind (fun idx => c.mav.get? idx)

/-- `SchedulingGaProblem` (`ga/problem.rs`). -/
structure SchedulingGaProblem where
  activities : List ActivityInfo
  resources : List Resource
  task_categories : List (String × String)
  transition_matrices : TransitionMatrixCollection
  deadlines : List (String × Int)
  release_times : List (String × Int)
  tardiness_weight : ℚ

/-- `SchedulingGaProblem::new`. -/
def SchedulingGaProblem.new (tasks : List Task) (resources : List Resource) :
    SchedulingGaProblem :=
  { activities := ActivityInfo.from_tasks tasks
    resources := resources
    task_categories :=
      tasks.foldl (fun m t => assocInsert m t.id t.category) []
    transition_matrices := TransitionMatrixCollection.new
    deadlines :=
      tasks.foldl (fun m t =>
        match t.deadline with
        | some dl => assocInsert m t.id dl
        | none => m) []
    release_times :=
      tasks.foldl (fun m t =>
        match t.release_time with
        | some rt => assocInsert m t.id rt
        | none => m) []
    tardiness_weight := 1 / 2 }

/-- `SchedulingGaProblem::with_transition_matrices`. -/
def SchedulingGaProblem.with_transition_matrices (p : SchedulingGaProblem)
    (matrices : TransitionMatrixCollection) : SchedulingGaProblem :=
  { p with transition_matrices := matrices }

/-- `SchedulingGaProblem::with_tardiness_weight`: `weight.clamp(0.0, 1.0)`,
i.e. `min (max weight 0) 1`. -/
def SchedulingGaProblem.with_tardiness_weight (p : SchedulingGaProblem)
    (weight : ℚ) : SchedulingGaProblem :=
  { p with tardiness_weight := min (max weight 0) 1 }

/-- The loop of `SchedulingGaProblem::decode` over the decoded OSV,
threading `resource_available`, `task_available` and `last_category`. -/
def decodeGo (p : SchedulingGaProblem) (c : ScheduleChromosome) :
    List (String × Int) → (String → Option Int) → (String → Option Int) →
    (String → Option String) → List Assignment
  | [], _, _, _ => []
  | (task_id, seq) :: rest, resAvail, taskAvail, lastCat =>
    match p.activities.find?
        (fun a => a.task_id = task_id ∧ a.sequence = seq) with
    | none => decodeGo p c rest resAvail taskAvail lastCat
    | some act =>
      match c.resource_for task_id seq with
      | none => decodeGo p c rest resAvail taskAvail lastCat
      | some r =>
        if r = "" then decodeGo p c rest resAvail taskAvail lastCat
        else
          let resource_ready := (resAvail r).getD 0
          let task_ready := (taskAvail task_id).getD 0
          let release := (assocGet p.release_times task_id).getD 0
          let earliest := max (max resource_ready task_ready) release
          let setup : Int :=
            match lastCat r with
            | some prev_cat =>
              let task_cat := (assocGet p.task_categories task_id).getD ""
              p.transition_matrices.get_transition_time r prev_cat task_cat
            | none => 0
          let endMs := earliest + setup + act.process_ms
          let a := (Assignment.new act.task_id task_id r earliest
            endMs).with_setup setup
          a :: decodeGo p c rest (updateFn resAvail r endMs)
            (updateFn taskAvail task_id endMs)
            (match assocGet p.task_categories task_id with
             | some cat => updateFn lastCat r cat
             | none => lastCat)

/-- `SchedulingGaProblem::decode`: the semi-active decoder. -/
def SchedulingGaProblem.decode (p : SchedulingGaProblem)
    (c : ScheduleChromosome) : Schedule :=
  ⟨decodeGo p c c.decode_osv (initAvail p.resources 0)
    (fun _ => none) (fun _ => none)⟩

/-- `SchedulingGaProblem::compute_fitness`: weighted combination of
makespan and total tardiness. -/
def SchedulingGaProblem.compute_fitness (p : SchedulingGaProblem)
    (s : Schedule) : ℚ :=
  let makespan : ℚ := (s.makespan_ms : ℚ)
  let total_tardiness : ℚ :=
    (p.deadlines.map (fun e =>
      ((max (((s.task_completion_time e.1).getD 0) - e.2) 0 : Int) : ℚ))).sum
  let makespan_weight := 1 - p.tardiness_weight
  makespan_weight * makespan + p.tardiness_weight * total_tardiness

/-- `SchedulingGaProblem::evaluate`: decode, then fitness. -/
def SchedulingGaProblem.evaluate (p : SchedulingGaProblem)
    (c : ScheduleChromosome) : ℚ :=
  p.compute_fitness (p.decode c)

/-- C5: `evaluate` returns `(1 − w)·makespan + w·total_tardiness` where
`w` is the configured tardiness weight clamped to `[0, 1]` (the default is
0.5), makespan is the decoded schedule's maximum assignment end time, and
total tardiness sums `max(0, completion − deadline)` over the deadline
map, with completion the latest end of the task's assignments (0 when it
has none). -/
theorem ga_fitness_formula (p : SchedulingGaProblem) (w : ℚ)
    (ch : ScheduleChromosome) (tasks : List Task)
    (resources : List Resource) :
    ((p.with_tardiness_weight w).evaluate ch =
      (1 - min (max w 0) 1) *
        (((p.with_tardiness_weight w).decode ch).makespan_ms : ℚ) +
      min (max w 0) 1 *
        ((p.deadlines.map (fun e =>
          ((max ((((p.with_tardiness_weight w).decode
              ch).task_completion_time e.1).getD 0 - e.2) 0 : Int) : ℚ))).sum)) ∧
    0 ≤ min (max w 0) 1 ∧ min (max w 0) 1 ≤ 1 ∧
    (SchedulingGaProblem.new tasks resources).tardiness_weight = 1 / 2 := by
  refine ⟨rfl, ?_, min_le_right _ _, rfl⟩
  exact le_min (le_max_right w 0) (by norm_num)

theorem decodeGo_activity_id (p : SchedulingGaProblem)
    (c : ScheduleChromosome) :
    ∀ (ops : List (String × Int)) (ra ta : String → Option Int)
      (lc : String → Option String),
    ∀ a ∈ decodeGo p c ops ra ta lc,
      a.activity_id = a.task_id ∧
      a.activity_id ∈ p.activities.map (fun ai => ai.task_id) := by
  intro ops
  induction ops with
  | nil => intro ra ta lc a ha; simp [decodeGo] at ha
  | cons op rest ih =>
    intro ra ta lc a ha
    rcases op with ⟨task_id, seq⟩
    rw [decodeGo] at ha
    cases hf : p.activities.find?
        (fun ai => ai.task_id = task_id ∧ ai.sequence = seq) with
    | none =>
      rw [hf] at ha
      exact ih _ _ _ a ha
    | some act =>
      rw [hf] at ha
      cases hr : c.resource_for task_id seq with
      | none =>
        rw [hr] at ha
        exact ih _ _ _ a ha
      | some r =>
        rw [hr] at ha
        simp only [] at ha
        by_cases hempty : r = ""
        · rw [if_pos hempty] at ha
          exact ih _ _ _ a ha
        · rw [if_neg hempty] at ha
          simp only [List.mem_cons] at ha
          rcases ha with rfl | ha
          · have hpred := List.find?_some hf
            simp only [decide_eq_true_eq] at hpred
            refine ⟨hpred.1, ?_⟩
            simp only [List.mem_map]
            exact ⟨act, List.mem_of_find?_eq_some hf, rfl⟩
          · exact ih _ _ _ a ha

/-- C10: every assignment emitted by the GA semi-active decoder
(`SchedulingGaProblem::decode`) has its `activity_id` field equal to the
owning task's identifier (the `ActivityInfo` table carries no activity
id); consequently, looking up a GA-decoded schedule by any identifier that
is not one of the activity table's task identifiers — in particular by a
real activity identifier — finds no assignment. -/
theorem ga_decode_uses_task_id (p : SchedulingGaProblem)
    (ch : ScheduleChromosome) :
    (∀ a ∈ (p.decode ch).assignments, a.activity_id = a.task_id) ∧
    (∀ aid : String, aid ∉ p.activities.map (fun ai => ai.task_id) →
      (p.decode ch).assignment_for_activity aid = none) := by
  constructor
  · intro a ha
    exact (decodeGo_activity_id p ch _ _ _ _ a ha).1
  · intro aid haid
    rw [Schedule.assignment_for_activity]
    apply List.find?_eq_none.mpr
    intro a ha
    have := (decodeGo_activity_id p ch _ _ _ _ a ha).2
    simp only [decide_eq_true_eq]
    intro hcontra
    rw [hcontra] at this
    exact haid this

/-- Concrete chromosome for the C10 witness, matching
`ActivityInfo.from_tasks exTasks`. -/
def exChrom : ScheduleChromosome :=
  { osv := ["J1", "J2", "J1"]
    mav := ["M1", "M1", "M1"]
    activity_index := [(("J1", 1), 0), (("J1", 2), 1), (("J2", 1), 2)]
    fitness := .inf }

/-- Witness for C10 at a concrete input: the real activity id "O1" finds
no assignment in the GA-decoded schedule. -/
theorem ga_decode_uses_task_id_witness :
    ("O1" ∉ (SchedulingGaProblem.new exTasks exResources).activities.map
      (fun ai => ai.task_id)) ∧
    ((SchedulingGaProblem.new exTasks
        exResources).decode exChrom).assignment_for_activity "O1" = none :=
  ⟨by decide,
   (ga_decode_uses_task_id (SchedulingGaProblem.new exTasks exResources)
     exChrom).2 "O1" (by decide)⟩

/-! ## GA chromosome operators (`src/ga/chromosome.rs`)

The random draws of the operators (the selected task subset of POX/JOX,
the segment bounds of LOX, the mutation positions) are passed as
parameters; everything after the draw is modelled exactly. -/

/-- Core of `pox_build_child`: walk the template; keep selected elements,
otherwise pull the next element of the (already filtered) donor iterator;
an exhausted iterator leaves the empty-string placeholder. -/
def poxGo (selected : List String) : List String → List String → List String
  | [], _ => []
  | t :: ts, ds =>
    if t ∈ selected then t :: poxGo selected ts ds
    else
      match ds with
      | d :: ds2 => d :: poxGo selected ts ds2
      | [] => "" :: poxGo selected ts []

/-- `pox_build_child` (`ga/chromosome.rs`): the donor iterator is
`donor.iter().filter(|t| !selected.contains(t))`. -/
def pox_build_child (template donor : List String)
    (selected : List String) : List String :=
  poxGo selected template (donor.filter (fun t => !decide (t ∈ selected)))

/-- Phase 2 of `jox_build_child`: fill the empty slots left to right from
the (already filtered) donor iterator. -/
def joxGo : List String → List String → List String
  | [], _ => []
  | slot :: ss, ds =>
    if slot = "" then
      match ds with
      | d :: ds2 => d :: joxGo ss ds2
      | [] => "" :: joxGo ss []
    else slot :: joxGo ss ds

/-- `jox_build_child` (`ga/chromosome.rs`): selected jobs keep their exact
positions from the primary parent; remaining slots are filled in order
from the donor's non-selected elements. -/
def jox_build_child (primary donor : List String)
    (selected : List String) : List String :=
  joxGo (primary.map (fun t => if t ∈ selected then t else ""))
    (donor.filter (fun t => !decide (t ∈ selected)))

/-- `swap_mutation` with explicit positions (`chromosome.osv.swap(i, j)`
after the `len < 2` guard). -/
def swap_mutation (c : ScheduleChromosome) (i j : Nat) : ScheduleChromosome :=
  if c.osv.length < 2 then c
  else
    match c.osv[i]?, c.osv[j]? with
    | some xi, some xj => { c with osv := (c.osv.set i xj).set j xi }
    | _, _ => c

/-- `insert_mutation` with explicit positions: remove at `i`, reinsert at
`j` (after the `len < 2` guard). -/
def insert_mutation (c : ScheduleChromosome) (i j : Nat) :
    ScheduleChromosome :=
  if c.osv.length < 2 then c
  else
    match c.osv[i]? with
    | some item => { c with osv := (c.osv.eraseIdx i).insertIdx j item }
    | none => c

/-- `invert_mutation` with explicit positions: reverse the sub-slice
`osv[i..=j]` (positions swapped first when `i > j`, after the `len < 2`
guard). -/
def invert_mutation (c : ScheduleChromosome) (i j : Nat) :
    ScheduleChromosome :=
  if c.osv.length < 2 then c
  else
    let lo := min i j
    let hi := max i j
    { c with osv :=
        c.osv.take lo ++ ((c.osv.drop lo).take (hi + 1 - lo)).reverse ++
          c.osv.drop (hi + 1) }

/-! ### POX conservation -/

theorem poxGo_perm (selected : List String) :
    ∀ (ts ds : List String),
    (ts.filter (fun t => !decide (t ∈ selected))).length ≤ ds.length →
    (poxGo selected ts ds).Perm
      (ts.filter (fun t => decide (t ∈ selected)) ++
        ds.take (ts.filter (fun t => !decide (t ∈ selected))).length) := by
  intro ts
  induction ts with
  | nil => intro ds h; simp [poxGo]
  | cons t ts ih =>
    intro ds h
    by_cases hsel : t ∈ selected
    · rw [poxGo.eq_def]
      simp only []
      rw [if_pos hsel]
      have hfilter1 : (t :: ts).filter (fun t => decide (t ∈ selected)) =
          t :: ts.filter (fun t => decide (t ∈ selected)) := by
        simp [List.filter_cons, hsel]
      have hfilter2 : (t :: ts).filter (fun t => !decide (t ∈ selected)) =
          ts.filter (fun t => !decide (t ∈ selected)) := by
        simp [List.filter_cons, hsel]
      rw [hfilter1, hfilter2]
      rw [hfilter2] at h
      exact (ih ds h).cons t
    · rw [poxGo.eq_def]
      simp only []
      rw [if_neg hsel]
      have hfilter1 : (t :: ts).filter (fun t => decide (t ∈ selected)) =
          ts.filter (fun t => decide (t ∈ selected)) := by
        simp [List.filter_cons, hsel]
      have hfilter2 : (t :: ts).filter (fun t => !decide (t ∈ selected)) =
          t :: ts.filter (fun t => !decide (t ∈ selected)) := by
        simp [List.filter_cons, hsel]
      rw [hfilter2] at h
      simp only [List.length_cons] at h
      cases ds with
      | nil => simp at h
      | cons d ds2 =>
        rw [hfilter1, hfilter2]
        simp only [List.length_cons, List.take_succ_cons]
        have hh : (ts.filter (fun t => !decide (t ∈ selected))).length ≤
            ds2.length := by simpa using h
        refine ((ih ds2 hh).cons d).trans ?_
        exact List.perm_middle.symm

theorem pox_build_child_perm {template donor : List String}
    (selected : List String) (hperm : donor.Perm template) :
    (pox_build_child template donor selected).Perm template := by
  rw [pox_build_child]
  have hlen : (template.filter (fun t => !decide (t ∈ selected))).length =
      (donor.filter (fun t => !decide (t ∈ selected))).length :=
    (hperm.filter _).length_eq.symm
  have h := poxGo_perm selected template
    (donor.filter (fun t => !decide (t ∈ selected))) (le_of_eq hlen)
  rw [hlen, List.take_length] at h
  refine h.trans ?_
  refine (List.Perm.append_left _ (hperm.filter _)).trans ?_
  exact List.filter_append_perm _ template

/-! ### JOX conservation -/

theorem joxGo_perm :
    ∀ (ss ds : List String),
    (joxGo ss ds).Perm
      (ss.filter (fun x => !decide (x = "")) ++ ds.take (ss.count "") ++
        List.replicate (ss.count "" - ds.length) "") := by
  intro ss
  induction ss with
  | nil => intro ds; simp [joxGo]
  | cons slot ss ih =>
    intro ds
    by_cases hemp : slot = ""
    · subst hemp
      have e1 : (("" : String) :: ss).filter (fun x => !decide (x = "")) =
          ss.filter (fun x => !decide (x = "")) := by simp
      have e2 : (("" : String) :: ss).count "" = ss.count "" + 1 := by simp
      cases ds with
      | nil =>
        rw [joxGo.eq_def]
        simp only [ite_self]
        rw [e1, e2, List.take_nil, List.append_nil, List.length_nil,
          Nat.sub_zero, List.replicate_succ]
        have h := ih []
        rw [List.take_nil, List.append_nil, List.length_nil,
          Nat.sub_zero] at h
        exact (h.cons "").trans List.perm_middle.symm
      | cons d ds2 =>
        rw [joxGo.eq_def]
        simp only [if_pos rfl]
        rw [e1, e2, List.take_succ_cons, List.length_cons]
        have hsub : ss.count "" + 1 - (ds2.length + 1) =
            ss.count "" - ds2.length := by omega
        rw [hsub]
        refine ((ih ds2).cons d).trans ?_
        simp only [List.append_assoc, List.cons_append]
        exact List.perm_middle.symm
    · rw [joxGo.eq_def]
      simp only [if_neg hemp]
      have e1 : (slot :: ss).filter (fun x => !decide (x = "")) =
          slot :: ss.filter (fun x => !decide (x = "")) := by
        simp [List.filter_cons, hemp]
      have e2 : (slot :: ss).count "" = ss.count "" := by
        simp [List.count_cons, hemp]
      rw [e1, e2]
      exact (ih ds).cons slot

theorem jox_mask_filter (primary selected : List String) :
    (primary.map (fun t => if t ∈ selected then t else "")).filter
      (fun x => !decide (x = "")) =
    primary.filter (fun t => decide (t ∈ selected) && !decide (t = "")) := by
  induction primary with
  | nil => rfl
  | cons t ts ih =>
    simp only [List.map_cons, List.filter_cons]
    by_cases hsel : t ∈ selected
    · by_cases hemp : t = ""
      · subst hemp
        simp [hsel, ih]
      · simp [hsel, hemp, ih]
    · simp [hsel, ih]

theorem jox_mask_count (primary selected : List String) :
    (primary.map (fun t => if t ∈ selected then t else "")).count "" =
    (primary.filter (fun t => !decide (t ∈ selected))).length +
      (primary.filter
        (fun t => decide (t ∈ selected) && decide (t = ""))).length := by
  induction primary with
  | nil => rfl
  | cons t ts ih =>
    simp only [List.map_cons, List.filter_cons, List.count_cons]
    by_cases hsel : t ∈ selected
    · by_cases hemp : t = ""
      · subst hemp
        simp [hsel, ih]
        omega
      · simp [hsel, hemp, ih]
    · simp [hsel, ih]
      omega

theorem jox_build_child_perm {primary donor : List String}
    (selected : List String) (hperm : donor.Perm primary) :
    (jox_build_child primary donor selected).Perm primary := by
  rw [jox_build_child]
  have hds : (donor.filter (fun t => !decide (t ∈ selected))).Perm
      (primary.filter (fun t => !decide (t ∈ selected))) := hperm.filter _
  have hdslen : (donor.filter (fun t => !decide (t ∈ selected))).length =
      (primary.filter (fun t => !decide (t ∈ selected))).length :=
    hds.length_eq
  have hcount := jox_mask_count primary selected
  have htake :
      (donor.filter (fun t => !decide (t ∈ selected))).take
        ((primary.map (fun t => if t ∈ selected then t else "")).count "") =
      donor.filter (fun t => !decide (t ∈ selected)) := by
    apply List.take_of_length_le
    rw [hdslen, hcount]
    omega
  have hrep :
      (primary.map (fun t => if t ∈ selected then t else "")).count "" -
        (donor.filter (fun t => !decide (t ∈ selected))).length =
      (primary.filter
        (fun t => decide (t ∈ selected) && decide (t = ""))).length := by
    rw [hdslen, hcount]
    omega
  have h := joxGo_perm
    (primary.map (fun t => if t ∈ selected then t else ""))
    (donor.filter (fun t => !decide (t ∈ selected)))
  rw [jox_mask_filter, htake, hrep] at h
  have hrepl : List.replicate
      (primary.filter
        (fun t => decide (t ∈ selected) && decide (t = ""))).length "" =
      primary.filter (fun t => decide (t ∈ selected) && decide (t = "")) := by
    symm
    apply List.eq_replicate_of_mem
    intro b hb
    have := List.of_mem_filter hb
    simp only [Bool.and_eq_true, decide_eq_true_eq] at this
    exact this.2
  rw [hrepl] at h
  refine h.trans ?_
  have hsplit :
      (primary.filter (fun t => decide (t ∈ selected) && !decide (t = ""))
        ++ primary.filter
          (fun t => decide (t ∈ selected) && decide (t = ""))).Perm
      (primary.filter (fun t => decide (t ∈ selected))) := by
    have hff1 : (primary.filter (fun t => decide (t ∈ selected))).filter
        (fun x => !decide (x = "")) =
        primary.filter (fun t => decide (t ∈ selected) && !decide (t = "")) := by
      rw [List.filter_filter]
      apply List.filter_congr
      intro x hx
      simp [Bool.and_comm]
    have hff2 : (primary.filter (fun t => decide (t ∈ selected))).filter
        (fun x => !(!decide (x = ""))) =
        primary.filter (fun t => decide (t ∈ selected) && decide (t = "")) := by
      rw [List.filter_filter]
      apply List.filter_congr
      intro x hx
      simp [Bool.and_comm]
    have hfap := List.filter_append_perm (fun x => !decide (x = ""))
      (primary.filter (fun t => decide (t ∈ selected)))
    rw [hff1] at hfap
    refine List.Perm.trans ?_ hfap
    apply List.Perm.append_left
    rw [hff2]
  rw [List.append_assoc]
  refine List.Perm.trans
    (List.Perm.append_left _
      (List.perm_append_comm.trans (List.Perm.append_left _ hds))) ?_
  rw [← List.append_assoc]
  exact (hsplit.append_right _).trans (List.filter_append_perm _ primary)

/-! ### Mutation conservation -/

theorem count_set {l : List String} :
    ∀ {i : Nat} {old : String}, l[i]? = some old → ∀ x v,
    ((l.set i x).count v) + (if old = v then 1 else 0) =
      l.count v + (if x = v then 1 else 0) := by
  induction l with
  | nil => intro i old h x v; simp at h
  | cons y tl ih =>
    intro i old h x v
    cases i with
    | zero =>
      obtain rfl : y = old := by simpa using h
      rw [List.set_cons_zero]
      by_cases h1 : x = v <;> by_cases h2 : y = v <;>
        simp [List.count_cons, h1, h2]
    | succ i =>
      rw [List.getElem?_cons_succ] at h
      rw [List.set_cons_succ]
      have hih := ih h x v
      by_cases h1 : old = v <;> by_cases h2 : x = v <;>
        by_cases h3 : y = v <;>
        simp [List.count_cons, h1, h2, h3] at hih ⊢ <;> omega

theorem set_set_swap_perm {l : List String} {i j : Nat} {xi xj : String}
    (hi : l[i]? = some xi) (hj : l[j]? = some xj) :
    ((l.set i xj).set j xi).Perm l := by
  rw [List.perm_iff_count]
  intro v
  have h1 := count_set hi xj v
  by_cases hij : i = j
  · subst hij
    have hlen : i < l.length := (List.getElem?_eq_some_iff.mp hi).1
    have hmid : (l.set i xj)[i]? = some xj := by
      rw [List.getElem?_set_self]
      simp [hlen]
    have h2 := count_set hmid xi v
    obtain rfl : xi = xj := by
      rw [hi] at hj
      injection hj
    by_cases hv1 : xi = v <;> simp [hv1] at h1 h2 ⊢ <;> omega
  · have hmid : (l.set i xj)[j]? = some xj := by
      rw [List.getElem?_set_ne hij]
      exact hj
    have h2 := count_set hmid xi v
    by_cases hv1 : xi = v <;> by_cases hv2 : xj = v <;>
      simp [hv1, hv2] at h1 h2 ⊢ <;> omega

theorem insertIdx_perm_cons (x : String) :
    ∀ (n : Nat) (l : List String), n ≤ l.length →
    (l.insertIdx n x).Perm (x :: l) := by
  intro n
  induction n with
  | zero => intro l h; rw [List.insertIdx_zero]
  | succ n ih =>
    intro l h
    cases l with
    | nil => simp at h
    | cons y tl =>
      rw [List.insertIdx_succ_cons]
      have hh : n ≤ tl.length := by simpa using h
      exact ((ih tl hh).cons y).trans (List.Perm.swap x y tl)

theorem swap_mutation_perm (c : ScheduleChromosome) (i j : Nat)
    (hi : i < c.osv.length) (hj : j < c.osv.length) :
    (swap_mutation c i j).osv.Perm c.osv := by
  rw [swap_mutation]
  split
  · exact List.Perm.refl _
  · rw [List.getElem?_eq_getElem hi, List.getElem?_eq_getElem hj]
    simp only []
    exact set_set_swap_perm (List.getElem?_eq_getElem hi)
      (List.getElem?_eq_getElem hj)

theorem insert_mutation_perm (c : ScheduleChromosome) (i j : Nat)
    (hi : i < c.osv.length) (hj : j < c.osv.length) :
    (insert_mutation c i j).osv.Perm c.osv := by
  rw [insert_mutation]
  split
  · exact List.Perm.refl _
  · rw [List.getElem?_eq_getElem hi]
    simp only []
    have hlen : j ≤ (c.osv.eraseIdx i).length := by
      have := List.length_eraseIdx_add_one hi
      omega
    refine (insertIdx_perm_cons _ j _ hlen).trans ?_
    refine List.Perm.symm ?_
    refine (List.perm_cons_erase (List.getElem_mem hi)).trans ?_
    exact (List.erase_getElem hi).cons _

theorem invert_mutation_perm (c : ScheduleChromosome) (i j : Nat)
    (hi : i < c.osv.length) (hj : j < c.osv.length) :
    (invert_mutation c i j).osv.Perm c.osv := by
  rw [invert_mutation]
  split
  · exact List.Perm.refl _
  · simp only []
    set lo := min i j with hlo
    set hi2 := max i j with hhi
    have hdrop : c.osv.drop (hi2 + 1) =
        (c.osv.drop lo).drop (hi2 + 1 - lo) := by
      rw [List.drop_drop]
      congr 1
      have : lo ≤ hi2 := min_le_max
      omega
    rw [hdrop]
    have hmain : (((c.osv.drop lo).take (hi2 + 1 - lo)).reverse ++
        (c.osv.drop lo).drop (hi2 + 1 - lo)).Perm (c.osv.drop lo) := by
      refine List.Perm.trans
        (List.Perm.append_right _ (List.reverse_perm _)) ?_
      rw [List.take_append_drop]
    rw [List.append_assoc]
    refine List.Perm.trans (List.Perm.append_left _ hmain) ?_
    rw [List.take_append_drop]

/-! ### LOX (linear order crossover) -/

/-- Segment placement of `lox_build_child`:
`child[start + i] = segment[i]` for each i. -/
def placeSeg : List String → Nat → List String → List String
  | child, _, [] => child
  | child, s, x :: xs => placeSeg (child.set s x) (s + 1) xs

/-- One skip bump of the `skip_counts` map. -/
def nsBump (sk : String → Nat) (x : String) : String → Nat :=
  fun y => if y = x then sk x + 1 else sk y

/-- The circular fill loop of `lox_build_child`: skip the first
`seg_count(x)` occurrences of each `x`, break when the write position
reaches `start`, otherwise write and advance circularly. -/
def loxFill (segC : String → Nat) (s len : Nat) :
    List String → List String → Nat → (String → Nat) → List String
  | [], child, _, _ => child
  | x :: xs, child, ci, sk =>
    if sk x < segC x then loxFill segC s len xs child ci (nsBump sk x)
    else if ci = s then child
    else loxFill segC s len xs (child.set ci x) ((ci + 1) % len) sk

/-- `lox_build_child` (`ga/chromosome.rs`): copy `p1[s..=e]` in place,
then fill the remaining positions circularly from `p2` starting at
`(e+1) % len`, skipping elements already contributed by the segment. -/
def lox_build_child (p1 p2 : List String) (s e : Nat) : List String :=
  let len := p1.length
  let segment := (p1.drop s).take (e + 1 - s)
  let child1 := placeSeg (List.replicate len "") s segment
  loxFill (fun x => segment.count x) s len
    (p2.drop ((e + 1) % len) ++ p2.take ((e + 1) % len)) child1
    ((e + 1) % len) (fun _ => 0)

/-- The sequence of elements the fill loop would place (ghost of the
skip bookkeeping). -/
def nsElems (segC : String → Nat) : List String → (String → Nat) → List String
  | [], _ => []
  | x :: xs, sk =>
    if sk x < segC x then nsElems segC xs (nsBump sk x)
    else x :: nsElems segC xs sk

theorem nsElems_count (segC : String → Nat) :
    ∀ (xs : List String) (sk : String → Nat) (v : String),
    (nsElems segC xs sk).count v = xs.count v - (segC v - sk v) := by
  intro xs
  induction xs with
  | nil => intro sk v; simp [nsElems]
  | cons x xs ih =>
    intro sk v
    have hstep : nsElems segC (x :: xs) sk =
        if sk x < segC x then nsElems segC xs (nsBump sk x)
        else x :: nsElems segC xs sk := rfl
    rw [hstep]
    by_cases hskip : sk x < segC x
    · rw [if_pos hskip]
      by_cases hv : x = v
      · subst hv
        have hihx := ih (nsBump sk x) x
        rw [hihx]
        simp only [nsBump, if_pos rfl, List.count_cons, beq_self_eq_true,
          if_true]
        omega
      · have hihv := ih (nsBump sk x) v
        rw [hihv]
        simp only [nsBump]
        rw [if_neg (by intro hc; exact hv hc.symm)]
        simp [List.count_cons, hv]
    · rw [if_neg hskip]
      by_cases hv : x = v
      · subst hv
        simp only [List.count_cons, beq_self_eq_true, if_true]
        rw [ih sk x]
        omega
      · have hihv := ih sk v
        simp only [List.count_cons]
        simp only [if_neg (by simp [hv] :
          ¬((x == v) = true))]
        omega

theorem circDist_step {s ci len : Nat} (hs : s < len) (hci : ci < len)
    (hne : ci ≠ s) :
    (s + len - (ci + 1) % len) % len + 1 = (s + len - ci) % len := by
  by_cases hlast : ci + 1 = len
  · rw [hlast, Nat.mod_self]
    have h1 : s + len - 0 = s + len := by omega
    rw [h1, Nat.add_mod_right, Nat.mod_eq_of_lt hs]
    have h2 : s + len - ci = s + 1 := by omega
    rw [h2, Nat.mod_eq_of_lt (by omega : s + 1 < len)]
  · have hci1 : ci + 1 < len := by omega
    rw [Nat.mod_eq_of_lt hci1]
    by_cases hlt : ci < s
    · have e1 : s + len - ci = len + (s - ci) := by omega
      have e2 : s + len - (ci + 1) = len + (s - ci - 1) := by omega
      rw [e1, e2, Nat.add_mod_left, Nat.add_mod_left,
        Nat.mod_eq_of_lt (by omega : s - ci < len),
        Nat.mod_eq_of_lt (by omega : s - ci - 1 < len)]
      omega
    · rw [Nat.mod_eq_of_lt (by omega : s + len - (ci + 1) < len),
        Nat.mod_eq_of_lt (by omega : s + len - ci < len)]
      omega

theorem placeSeg_append :
    ∀ (seg mid pre post : List String), mid.length = seg.length →
    placeSeg (pre ++ (mid ++ post)) pre.length seg = pre ++ (seg ++ post) := by
  intro seg
  induction seg with
  | nil =>
    intro mid pre post hlen
    cases mid with
    | nil => rfl
    | cons m ms => simp at hlen
  | cons x xs ih =>
    intro mid pre post hlen
    cases mid with
    | nil => simp at hlen
    | cons m ms =>
      rw [placeSeg.eq_def]
      simp only []
      have hset : (pre ++ (m :: ms ++ post)).set pre.length x =
          (pre ++ [x]) ++ (ms ++ post) := by
        rw [List.set_append]
        rw [if_neg (by omega)]
        simp
      rw [hset]
      have hlen2 : (pre ++ [x]).length = pre.length + 1 := by simp
      have hms : ms.length = xs.length := by simpa using hlen
      have := ih ms (pre ++ [x]) post hms
      rw [hlen2] at this
      rw [this]
      simp

theorem loxFill_count (segC : String → Nat) (s len : Nat) (hs : s < len) :
    ∀ (xs : List String), ∀ (child : List String) (ci : Nat)
      (sk : String → Nat),
    ci < len → child.length = len →
    (nsElems segC xs sk).length ≤ (s + len - ci) % len →
    (∀ j, j < (nsElems segC xs sk).length →
      child[(ci + j) % len]? = some "") →
    ∀ v, (loxFill segC s len xs child ci sk).count v +
        (if ("" : String) = v then (nsElems segC xs sk).length else 0) =
      child.count v + (nsElems segC xs sk).count v := by
  intro xs
  induction xs with
  | nil =>
    intro child ci sk hci hchild hA hB v
    simp [loxFill, nsElems]
  | cons x xs ih =>
    intro child ci sk hci hchild hA hB v
    have hfill : loxFill segC s len (x :: xs) child ci sk =
        if sk x < segC x then loxFill segC s len xs child ci (nsBump sk x)
        else if ci = s then child
        else loxFill segC s len xs (child.set ci x) ((ci + 1) % len) sk := rfl
    have hns : nsElems segC (x :: xs) sk =
        if sk x < segC x then nsElems segC xs (nsBump sk x)
        else x :: nsElems segC xs sk := rfl
    by_cases hskip : sk x < segC x
    · rw [hfill, if_pos hskip]
      rw [hns, if_pos hskip] at hA hB ⊢
      exact ih child ci (nsBump sk x) hci hchild hA hB v
    · rw [hfill, if_neg hskip]
      rw [hns, if_neg hskip] at hA hB ⊢
      simp only [List.length_cons] at hA hB
      have hdistlt : (s + len - ci) % len < len :=
        Nat.mod_lt _ (by omega)
      by_cases hbreak : ci = s
      · exfalso
        rw [hbreak] at hA
        have hzz : s + len - s = len := by omega
        rw [hzz, Nat.mod_self] at hA
        omega
      · rw [if_neg hbreak]
        have hzero : child[ci]? = some "" := by
          have := hB 0 (by omega)
          rwa [Nat.add_zero, Nat.mod_eq_of_lt hci] at this
        have hci2 : (ci + 1) % len < len := Nat.mod_lt _ (by omega)
        have hchild2 : (child.set ci x).length = len := by
          rw [List.length_set]; exact hchild
        have hstepdist := circDist_step hs hci hbreak
        have hA2 : (nsElems segC xs sk).length ≤
            (s + len - (ci + 1) % len) % len := by omega
        have hB2 : ∀ j, j < (nsElems segC xs sk).length →
            (child.set ci x)[((ci + 1) % len + j) % len]? = some "" := by
          intro j hj
          have hpos : ((ci + 1) % len + j) % len = (ci + (j + 1)) % len := by
            rw [Nat.mod_add_mod]
            congr 1
            omega
          rw [hpos]
          have hne : ci ≠ (ci + (j + 1)) % len := by
            intro hc
            have hmodeq : (ci + (j + 1)) % len = ci % len := by
              rw [← hc, Nat.mod_eq_of_lt hci]
            have hdvd : len ∣ (j + 1) := by
              have h1 : (ci + (j + 1)) % len = (ci + 0) % len := by
                rw [Nat.add_zero]
                exact hmodeq
              have h2 : (j + 1) % len = 0 % len :=
                Nat.ModEq.add_left_cancel' ci h1
              simpa [Nat.modEq_iff_dvd'] using
                (Nat.modEq_zero_iff_dvd.mp h2)
            have := Nat.le_of_dvd (by omega) hdvd
            omega
          rw [List.getElem?_set_ne hne]
          have := hB (j + 1) (by omega)
          exact this
        have hih := ih (child.set ci x) ((ci + 1) % len) sk hci2 hchild2
          hA2 hB2 v
        have hsetcount := count_set hzero x v
        have hcons : (x :: nsElems segC xs sk).count v =
            (nsElems segC xs sk).count v + (if x = v then 1 else 0) := by
          simp only [List.count_cons]
          by_cases hxv : x = v <;> simp [hxv]
        rw [hcons]
        simp only [List.length_cons]
        by_cases hev : ("" : String) = v
        · rw [if_pos hev] at hih ⊢
          by_cases hxv : x = v
          · rw [if_pos hev, if_pos hxv] at hsetcount
            rw [if_pos hxv]
            omega
          · rw [if_pos hev, if_neg hxv] at hsetcount
            rw [if_neg hxv]
            omega
        · rw [if_neg hev] at hih ⊢
          by_cases hxv : x = v
          · rw [if_neg hev, if_pos hxv] at hsetcount
            rw [if_pos hxv]
            omega
          · rw [if_neg hev, if_neg hxv] at hsetcount
            rw [if_neg hxv]
            omega

theorem lox_build_child_perm {p1 p2 : List String} {s e : Nat}
    (hperm : p2.Perm p1) (hse : s ≤ e) (he : e < p1.length) :
    (lox_build_child p1 p2 s e).Perm p1 := by
  have hlen2 : p2.length = p1.length := hperm.length_eq
  have hslt : s < p1.length := by omega
  rw [List.perm_iff_count]
  intro v
  have hunfold : lox_build_child p1 p2 s e =
      loxFill (fun x => ((p1.drop s).take (e + 1 - s)).count x) s p1.length
        (p2.drop ((e + 1) % p1.length) ++ p2.take ((e + 1) % p1.length))
        (placeSeg (List.replicate p1.length "") s
          ((p1.drop s).take (e + 1 - s)))
        ((e + 1) % p1.length) (fun _ => 0) := rfl
  rw [hunfold]
  set len := p1.length with hlendef
  set seg := (p1.drop s).take (e + 1 - s) with hsegdef
  set ci0 := (e + 1) % len with hci0def
  set rot := p2.drop ci0 ++ p2.take ci0 with hrotdef
  have hseglen : seg.length = e + 1 - s := by
    rw [hsegdef, List.length_take, List.length_drop]
    omega
  have hlenpos : 0 < len := by omega
  have hci0lt : ci0 < len := Nat.mod_lt _ hlenpos
  have hchild1 : placeSeg (List.replicate len "") s seg =
      List.replicate s "" ++ (seg ++ List.replicate (len - e - 1) "") := by
    have hsplit : List.replicate len ("" : String) =
        List.replicate s "" ++ (List.replicate (e + 1 - s) "" ++
          List.replicate (len - e - 1) "") := by
      rw [← List.replicate_add, ← List.replicate_add]
      congr 1
      omega
    rw [hsplit]
    have hmid : (List.replicate (e + 1 - s) ("" : String)).length =
        seg.length := by
      rw [List.length_replicate, hseglen]
    have h := placeSeg_append seg (List.replicate (e + 1 - s) "")
      (List.replicate s "") (List.replicate (len - e - 1) "") hmid
    rw [List.length_replicate] at h
    exact h
  have hchild1len : (placeSeg (List.replicate len "") s seg).length = len := by
    rw [hchild1]
    simp only [List.length_append, List.length_replicate, hseglen]
    omega
  have hget : ∀ i, i < len → (i < s ∨ e < i) →
      (placeSeg (List.replicate len "") s seg)[i]? = some "" := by
    intro i hilen hcase
    rw [hchild1]
    rcases hcase with hlo | hhi
    · rw [List.getElem?_append_left
        (by rw [List.length_replicate]; exact hlo)]
      rw [List.getElem?_replicate, if_pos hlo]
    · rw [List.getElem?_append_right
        (by rw [List.length_replicate]; omega)]
      rw [List.length_replicate]
      rw [List.getElem?_append_right (by rw [hseglen]; omega)]
      rw [hseglen, List.getElem?_replicate, if_pos (by omega)]
  have hrotcount : ∀ w, rot.count w = p1.count w := by
    intro w
    rw [hrotdef, List.count_append]
    have := congrArg (List.count w) (List.take_append_drop ci0 p2)
    rw [List.count_append] at this
    rw [Nat.add_comm, this]
    exact hperm.count_eq w
  have hrotlen : rot.length = len := by
    rw [hrotdef, List.length_append, List.length_drop, List.length_take]
    omega
  have hsegle : ∀ w, seg.count w ≤ p1.count w := by
    intro w
    have hsub : seg.Sublist p1 :=
      (List.take_sublist _ _).trans (List.drop_sublist _ _)
    exact hsub.count_le w
  have hnscount : ∀ w,
      (nsElems (fun x => seg.count x) rot (fun _ => 0)).count w =
        rot.count w - seg.count w := by
    intro w
    rw [nsElems_count]
    simp
  have hnslen :
      (nsElems (fun x => seg.count x) rot (fun _ => 0)).length =
        len - seg.length := by
    have hle : (seg : Multiset String) ≤ (rot : Multiset String) := by
      rw [Multiset.le_iff_count]
      intro a
      rw [Multiset.coe_count, Multiset.coe_count, hrotcount]
      exact hsegle a
    have hm : ((nsElems (fun x => seg.count x) rot (fun _ => 0) :
        List String) : Multiset String) =
        (rot : Multiset String) - (seg : Multiset String) := by
      ext a
      rw [Multiset.count_sub, Multiset.coe_count, Multiset.coe_count,
        Multiset.coe_count, hnscount]
    have hcard := congrArg Multiset.card hm
    rw [Multiset.coe_card, Multiset.card_sub hle, Multiset.coe_card,
      Multiset.coe_card, hrotlen] at hcard
    exact hcard
  have hdist0 : (s + len - ci0) % len = len - seg.length := by
    rw [hseglen, hci0def]
    by_cases hwrap : e + 1 = len
    · rw [hwrap, Nat.mod_self, Nat.sub_zero, Nat.add_mod_right,
        Nat.mod_eq_of_lt hslt]
      omega
    · have hlt : e + 1 < len := by omega
      rw [Nat.mod_eq_of_lt hlt,
        Nat.mod_eq_of_lt (by omega : s + len - (e + 1) < len)]
      omega
  have hB0 : ∀ j,
      j < (nsElems (fun x => seg.count x) rot (fun _ => 0)).length →
      (placeSeg (List.replicate len "") s seg)[(ci0 + j) % len]? =
        some "" := by
    intro j hj
    rw [hnslen] at hj
    have hpos : (ci0 + j) % len = (e + 1 + j) % len := by
      rw [hci0def, Nat.mod_add_mod]
    rw [hpos]
    by_cases hcase : e + 1 + j < len
    · rw [Nat.mod_eq_of_lt hcase]
      exact hget _ hcase (Or.inr (by omega))
    · have h2len : e + 1 + j - len < s := by omega
      rw [Nat.mod_eq_sub_mod (by omega),
        Nat.mod_eq_of_lt (by omega : e + 1 + j - len < len)]
      exact hget _ (by omega) (Or.inl h2len)
  have hmain := loxFill_count (fun x => seg.count x) s len hslt rot
    (placeSeg (List.replicate len "") s seg) ci0 (fun _ => 0)
    hci0lt hchild1len (by rw [hnslen, hdist0]) hB0 v
  have hc1count : (placeSeg (List.replicate len "") s seg).count v =
      (if ("" : String) = v then s else 0) + seg.count v +
        (if ("" : String) = v then len - e - 1 else 0) := by
    rw [hchild1, List.count_append, List.count_append,
      List.count_replicate, List.count_replicate]
    by_cases hv : ("" : String) = v
    · rw [if_pos (beq_iff_eq.mpr hv), if_pos (beq_iff_eq.mpr hv),
        if_pos hv, if_pos hv]
      omega
    · rw [if_neg (by simp [hv]), if_neg (by simp [hv]), if_neg hv,
        if_neg hv]
      omega
  rw [hc1count, hnslen, hnscount v, hrotcount v] at hmain
  have h1 := hsegle v
  have h2 := hseglen
  by_cases hv : ("" : String) = v
  · rw [if_pos hv, if_pos hv, if_pos hv] at hmain
    omega
  · rw [if_neg hv, if_neg hv, if_neg hv] at hmain
    omega

/-- `pox_crossover` with the randomly selected task subset passed in;
each child inherits the corresponding parent's MAV and activity index and
resets fitness to infinity. -/
def pox_crossover_with (p1 p2 : ScheduleChromosome)
    (selected : List String) : ScheduleChromosome × ScheduleChromosome :=
  (⟨pox_build_child p1.osv p2.osv selected, p1.mav, p1.activity_index, .inf⟩,
   ⟨pox_build_child p2.osv p1.osv selected, p2.mav, p2.activity_index, .inf⟩)

/-- `lox_crossover` with the (ordered) segment bounds passed in; returns
the parents unchanged when the OSV has fewer than 2 entries. -/
def lox_crossover_with (p1 p2 : ScheduleChromosome) (s e : Nat) :
    ScheduleChromosome × ScheduleChromosome :=
  if p1.osv.length < 2 then (p1, p2)
  else
    (⟨lox_build_child p1.osv p2.osv s e, p1.mav, p1.activity_index, .inf⟩,
     ⟨lox_build_child p2.osv p1.osv s e, p2.mav, p2.activity_index, .inf⟩)

/-- `jox_crossover` with the randomly selected task subset passed in. -/
def jox_crossover_with (p1 p2 : ScheduleChromosome)
    (selected : List String) : ScheduleChromosome × ScheduleChromosome :=
  (⟨jox_build_child p1.osv p2.osv selected, p1.mav, p1.activity_index, .inf⟩,
   ⟨jox_build_child p2.osv p1.osv selected, p2.mav, p2.activity_index, .inf⟩)

/-- C6: for parents whose OSVs are permutations of the same multiset,
every child of POX, LOX (for any in-range segment) and JOX has an OSV
with that same multiset; and swap, insert and invert mutation (at any
in-range positions) leave the OSV multiset unchanged. -/
theorem osv_multiset_conservation (c1 c2 : ScheduleChromosome)
    (S : List String) (hperm : c2.osv.Perm c1.osv) :
    ((pox_crossover_with c1 c2 S).1.osv.Perm c1.osv ∧
     (pox_crossover_with c1 c2 S).2.osv.Perm c1.osv) ∧
    ((jox_crossover_with c1 c2 S).1.osv.Perm c1.osv ∧
     (jox_crossover_with c1 c2 S).2.osv.Perm c1.osv) ∧
    (∀ s e, s ≤ e → e < c1.osv.length →
      (lox_crossover_with c1 c2 s e).1.osv.Perm c1.osv ∧
      (lox_crossover_with c1 c2 s e).2.osv.Perm c1.osv) ∧
    (∀ (c : ScheduleChromosome) (i j : Nat),
      i < c.osv.length → j < c.osv.length →
      (swap_mutation c i j).osv.Perm c.osv ∧
      (insert_mutation c i j).osv.Perm c.osv ∧
      (invert_mutation c i j).osv.Perm c.osv) := by
  refine ⟨⟨?_, ?_⟩, ⟨?_, ?_⟩, ?_, ?_⟩
  · exact pox_build_child_perm S hperm
  · exact (pox_build_child_perm S hperm.symm).trans hperm
  · exact jox_build_child_perm S hperm
  · exact (jox_build_child_perm S hperm.symm).trans hperm
  · intro s e hse he
    rw [lox_crossover_with]
    split
    · exact ⟨List.Perm.refl _, hperm⟩
    · constructor
      · exact lox_build_child_perm hperm hse he
      · have he2 : e < c2.osv.length := by
          rw [hperm.length_eq]; exact he
        exact (lox_build_child_perm hperm.symm hse he2).trans hperm
  · intro c i j hi hj
    exact ⟨swap_mutation_perm c i j hi hj,
      insert_mutation_perm c i j hi hj,
      invert_mutation_perm c i j hi hj⟩

/-- A second chromosome with the same OSV multiset as `exChrom`, for the
C6 witness. -/
def exChrom2 : ScheduleChromosome :=
  { osv := ["J2", "J1", "J1"]
    mav := ["M1", "M2", "M1"]
    activity_index := [(("J1", 1), 0), (("J1", 2), 1), (("J2", 1), 2)]
    fitness := .inf }

/-- Witness for C6 at a concrete input. -/
theorem osv_multiset_conservation_witness :
    exChrom2.osv.Perm exChrom.osv ∧
    ((0 : Nat) ≤ 1 ∧ 1 < exChrom.osv.length ∧
      0 < exChrom.osv.length ∧ 2 < exChrom.osv.length) ∧
    (lox_crossover_with exChrom exChrom2 0 1).1.osv.Perm exChrom.osv ∧
    (swap_mutation exChrom 0 2).osv.Perm exChrom.osv :=
  ⟨by decide, ⟨by decide, by decide, by decide, by decide⟩,
   ((osv_multiset_conservation exChrom exChrom2 ["J1"]
      (by decide)).2.2.1 0 1 (by decide) (by decide)).1,
   ((osv_multiset_conservation exChrom exChrom2 ["J1"]
      (by decide)).2.2.2 exChrom 0 2 (by decide) (by decide)).1⟩

/-! ## CP model builder (`src/cp/mod.rs`) -/

/-- Modelled from the spec: `IntervalVar` of the external `u_metaheur::cp`
crate (spec section 6), `{ id, start_min, start_max, duration, end_max }`. -/
structure IntervalVar where
  id : String
  start_min : Int
  start_max : Int
  duration : Int
  end_max : Int
deriving DecidableEq, Repr

/-- `IntervalVar::new`. -/
def IntervalVar.new (id : String) (start_min start_max duration endMax : Int) :
    IntervalVar :=
  ⟨id, start_min, start_max, duration, endMax⟩

/-- Modelled from the spec: the `Objective` vocabulary of the external CP
crate; the builder only uses `MinimizeMaxEnd`. -/
inductive Objective where
  | MinimizeMaxEnd
deriving DecidableEq, Repr

/-- Modelled from the spec: the external `CpModel` (spec section 6), an
accumulator of interval variables, precedence constraints, no-overlap
constraints and an objective; each `add_*` appends. -/
structure CpModel where
  name : String
  horizon_ms : Int
  intervals : List IntervalVar
  precedences : List (String × String × Int)
  no_overlaps : List (List String)
  objective : Option Objective
deriving DecidableEq, Repr

/-- `CpModel::new`. -/
def CpModel.new (name : String) (horizon_ms : Int) : CpModel :=
  ⟨name, horizon_ms, [], [], [], none⟩

/-- `CpModel::add_interval`. -/
def CpModel.add_interval (m : CpModel) (iv : IntervalVar) : CpModel :=
  { m with intervals := m.intervals ++ [iv] }

/-- `CpModel::add_precedence`. -/
def CpModel.add_precedence (m : CpModel) (before after : String)
    (min_delay_ms : Int) : CpModel :=
  { m with precedences := m.precedences ++ [(before, after, min_delay_ms)] }

/-- `CpModel::add_no_overlap`. -/
def CpModel.add_no_overlap (m : CpModel) (activity_ids : List String) :
    CpModel :=
  { m with no_overlaps := m.no_overlaps ++ [activity_ids] }

/-- `CpModel::set_objective`. -/
def CpModel.set_objective (m : CpModel) (o : Objective) : CpModel :=
  { m with objective := some o }

/-- A scheduling constraint (`Constraint` in `models/constraint.rs`). -/
inductive Constraint where
  | Precedence (before after : String) (min_delay_ms : Int)
  | Capacity (resource_id : String) (max_capacity : Int)
  | TimeWindow (activity_id : String) (start_ms end_ms : Int)
  | NoOverlap (resource_id : String) (activity_ids : List String)
  | TransitionCost (from_category to_category : String) (cost_ms : Int)
  | Synchronize (activity_ids : List String)
deriving DecidableEq, Repr

/-- `ScheduleCpBuilder` (`cp/mod.rs`). -/
structure ScheduleCpBuilder where
  tasks : List Task
  resources : List Resource
  constraints : List Constraint
  transition_matrices : TransitionMatrixCollection

/-- `ScheduleCpBuilder::new`. -/
def ScheduleCpBuilder.new (tasks : List Task) (resources : List Resource) :
    ScheduleCpBuilder :=
  ⟨tasks, resources, [], TransitionMatrixCollection.new⟩

/-- `ScheduleCpBuilder::with_constraints`. -/
def ScheduleCpBuilder.with_constraints (b : ScheduleCpBuilder)
    (constraints : List Constraint) : ScheduleCpBuilder :=
  { b with constraints := constraints }

/-- The per-resource activity list of
`ScheduleCpBuilder::collect_resource_activities`: one entry (the activity
id) per occurrence of the resource among the candidate lists of all
requirements, in traversal order. -/
def resourceActivities (tasks : List Task) (rid : String) : List String :=
  tasks.flatMap (fun t => t.activities.flatMap (fun a =>
    (a.candidate_resources.filter (fun c => c = rid)).map (fun _ => a.id)))

/-- The key set of `collect_resource_activities` (the hash map's
unspecified iteration order is modelled as first-appearance order). -/
def resourceKeys (tasks : List Task) : List String :=
  (tasks.flatMap (fun t =>
    t.activities.flatMap (fun a => a.candidate_resources))).dedup

/-- Consecutive activity pairs of a task (`(act[i].id, act[i+1].id)`). -/
def consecPairs (acts : List Activity) : List (String × String) :=
  (acts.zip (acts.drop 1)).map (fun p => (p.1.id, p.2.id))

/-- One iteration of the per-task loop of `ScheduleCpBuilder::build`: add
an interval variable per activity, then the intra-task zero-delay
precedences. -/
def addTaskToModel (horizon_ms : Int) (m : CpModel) (t : Task) : CpModel :=
  let release := t.release_time.getD 0
  let m1 := t.activities.foldl (fun m act =>
    m.add_interval (IntervalVar.new act.id release
      (horizon_ms - act.duration.process_ms) act.duration.process_ms
      horizon_ms)) m
  (consecPairs t.activities).foldl (fun m p => m.add_precedence p.1 p.2 0) m1

/-- `ScheduleCpBuilder::build`. -/
def ScheduleCpBuilder.build (b : ScheduleCpBuilder) (horizon_ms : Int) :
    CpModel :=
  let m1 := b.tasks.foldl (addTaskToModel horizon_ms)
    (CpModel.new "scheduling" horizon_ms)
  let m2 := ((resourceKeys b.tasks).map
      (fun rid => resourceActivities b.tasks rid)).foldl
    (fun m ids => if ids.length > 1 then m.add_no_overlap ids else m) m1
  let m3 := b.constraints.foldl (fun m c =>
    match c with
    | .Precedence before after d => m.add_precedence before after d
    | .NoOverlap _ ids => m.add_no_overlap ids
    | _ => m) m2
  m3.set_objective .MinimizeMaxEnd

theorem foldl_add_interval_eq (horizon_ms release : Int) :
    ∀ (acts : List Activity) (m : CpModel),
      List.foldl (fun m act =>
        CpModel.add_interval m (IntervalVar.new act.id release
          (horizon_ms - act.duration.process_ms) act.duration.process_ms
          horizon_ms)) m acts
        = { m with intervals := m.intervals ++ acts.map (fun act =>
            IntervalVar.new act.id release
              (horizon_ms - act.duration.process_ms) act.duration.process_ms
              horizon_ms) } := by
  intro acts
  induction acts with
  | nil => intro m; simp
  | cons a rest ih =>
      intro m
      simp only [List.foldl, List.map]
      rw [ih]
      simp [CpModel.add_interval]

theorem foldl_add_precedence_eq :
    ∀ (ps : List (String × String)) (m : CpModel),
      List.foldl (fun m (p : String × String) =>
        CpModel.add_precedence m p.1 p.2 0) m ps
        = { m with precedences := m.precedences
            ++ ps.map (fun p => (p.1, p.2, (0 : Int))) } := by
  intro ps
  induction ps with
  | nil => intro m; simp
  | cons p rest ih =>
      intro m
      simp only [List.foldl, List.map]
      rw [ih]
      simp [CpModel.add_precedence]

theorem addTaskToModel_eq (horizon_ms : Int) (m : CpModel) (t : Task) :
    addTaskToModel horizon_ms m t
      = { m with
          intervals := m.intervals ++ t.activities.map (fun act =>
            IntervalVar.new act.id (t.release_time.getD 0)
              (horizon_ms - act.duration.process_ms) act.duration.process_ms
              horizon_ms),
          precedences := m.precedences
            ++ (consecPairs t.activities).map
                (fun p => (p.1, p.2, (0 : Int))) } := by
  show (List.foldl (fun m p => CpModel.add_precedence m p.1 p.2 0)
      (List.foldl (fun m act =>
        CpModel.add_interval m (IntervalVar.new act.id (t.release_time.getD 0)
          (horizon_ms - act.duration.process_ms) act.duration.process_ms
          horizon_ms)) m t.activities) (consecPairs t.activities)) = _
  rw [foldl_add_interval_eq, foldl_add_precedence_eq]

theorem foldl_addTaskToModel_eq (horizon_ms : Int) :
    ∀ (tasks : List Task) (m : CpModel),
      List.foldl (addTaskToModel horizon_ms) m tasks
        = { m with
            intervals := m.intervals ++ tasks.flatMap (fun t =>
              t.activities.map (fun act =>
                IntervalVar.new act.id (t.release_time.getD 0)
                  (horizon_ms - act.duration.process_ms)
                  act.duration.process_ms horizon_ms)),
            precedences := m.precedences ++ tasks.flatMap (fun t =>
              (consecPairs t.activities).map
                (fun p => (p.1, p.2, (0 : Int)))) } := by
  intro tasks
  induction tasks with
  | nil => intro m; simp
  | cons t rest ih =>
      intro m
      simp only [List.foldl, List.flatMap_cons]
      rw [addTaskToModel_eq, ih]
      simp [List.append_assoc]

theorem foldl_add_no_overlap_eq :
    ∀ (ls : List (List String)) (m : CpModel),
      List.foldl (fun m ids =>
        if ids.length > 1 then CpModel.add_no_overlap m ids else m) m ls
        = { m with no_overlaps := m.no_overlaps
            ++ ls.filter (fun ids => ids.length > 1) } := by
  intro ls
  induction ls with
  | nil => intro m; simp
  | cons ids rest ih =>
      intro m
      simp only [List.foldl, List.filter_cons]
      by_cases h : ids.length > 1
      · rw [if_pos h, ih]
        simp [CpModel.add_no_overlap, h]
      · rw [if_neg h, ih]
        simp [h]

/-- An activity that names the same resource in two distinct requirements;
used to probe `collect_resource_activities`. -/
def cx8Activity : Activity :=
  ⟨"OX", "JX", 0, ActivityDuration.fixed 100,
    [⟨"Machine", 1, ["M1"]⟩, ⟨"Operator", 1, ["M1"]⟩], []⟩

def cx8Tasks : List Task :=
  [⟨"JX", "", 0, none, none, [cx8Activity]⟩]

/-- The CP model built for `cx8Tasks`. -/
def cx8Model : CpModel :=
  (ScheduleCpBuilder.new cx8Tasks [⟨"M1", 1⟩]).build 1000

/-- C8 counterexample: `collect_resource_activities` pushes one entry per
candidate *occurrence*, so an activity that names the same resource in two
requirements is counted twice.  The built model then carries a `NoOverlap`
constraint over the list `[OX, OX]` for resource `M1` although the set of
candidate activities of `M1` contains just the one activity `OX` — refuting
the claim's reading that a `NoOverlap` constraint appears only for a
resource whose candidate-activity *set* has at least two activities, and
that it ranges over that set. -/
theorem cp_no_overlap_multiplicity_counterexample :
    cx8Model.no_overlaps = [["OX", "OX"]] ∧
    (resourceActivities cx8Tasks "M1").dedup = ["OX"] := by
  constructor
  · rfl
  · rfl

/-- C8 (amended): `ScheduleCpBuilder::build(horizon_ms)` with no
user-supplied constraints produces exactly: one interval variable per
activity with `start_min` = the task's release time (or 0), `start_max` =
`horizon_ms − process_ms`, fixed `duration` = `process_ms` and `end_max` =
`horizon_ms`, in task order; one zero-delay precedence constraint per pair
of consecutive activities within each task; one `NoOverlap` constraint per
resource whose collected candidate-activity *list* (one entry per
occurrence of the resource in a requirement's candidate list, so an
activity may be counted more than once) has more than one entry, ranging
over that list; and the `MinimizeMaxEnd` objective. -/
theorem cp_build_model (tasks : List Task) (resources : List Resource)
    (horizon_ms : Int) :
    (ScheduleCpBuilder.new tasks resources).build horizon_ms
      = { name := "scheduling", horizon_ms := horizon_ms,
          intervals := tasks.flatMap (fun t =>
            t.activities.map (fun act =>
              IntervalVar.new act.id (t.release_time.getD 0)
                (horizon_ms - act.duration.process_ms)
                act.duration.process_ms horizon_ms)),
          precedences := tasks.flatMap (fun t =>
            (consecPairs t.activities).map
              (fun p => (p.1, p.2, (0 : Int)))),
          no_overlaps := ((resourceKeys tasks).map
              (fun rid => resourceActivities tasks rid)).filter
            (fun ids => ids.length > 1),
          objective := some Objective.MinimizeMaxEnd } := by
  show CpModel.set_objective
    (List.foldl _ (List.foldl _ (List.foldl (addTaskToModel horizon_ms)
      (CpModel.new "scheduling" horizon_ms) tasks) _) []) _ = _
  simp only [List.foldl]
  rw [foldl_addTaskToModel_eq, foldl_add_no_overlap_eq]
  rfl

/-! ## Input validation (`src/validation.rs`) -/

/-- `ValidationErrorKind` (`validation.rs`). -/
inductive ValidationErrorKind where
  | DuplicateId
  | InvalidResourceReference
  | CyclicDependency
  | EmptyTask
  | InvalidPredecessor
deriving DecidableEq, Repr

/-- `ValidationError` (`validation.rs`). -/
structure ValidationError where
  kind : ValidationErrorKind
  message : String
deriving DecidableEq, Repr

/-- The duplicate-id accumulation pattern of `validate_input`: a
`HashSet::insert` driven loop, modelled over the projected id list with the
set as a list (`insert` keeps an already present id and reports it). -/
def dupScan (mk : String → ValidationError) (ids : List String)
    (init : List String × List ValidationError) :
    List String × List ValidationError :=
  ids.foldl (fun acc id =>
    if id ∈ acc.1 then (acc.1, acc.2 ++ [mk id])
    else (id :: acc.1, acc.2)) init

/-- The duplicate-resource-id error message. -/
def dupResErr (id : String) : ValidationError :=
  ⟨.DuplicateId, "Duplicate resource ID: " ++ id⟩

/-- The duplicate-task-id error message. -/
def dupTaskErr (id : String) : ValidationError :=
  ⟨.DuplicateId, "Duplicate task ID: " ++ id⟩

/-- The empty-task error message. -/
def emptyTaskErr (id : String) : ValidationError :=
  ⟨.EmptyTask, "Task \x27" ++ id ++ "\x27 has no activities"⟩

/-- The duplicate-activity-id error message. -/
def dupActErr (id : String) : ValidationError :=
  ⟨.DuplicateId, "Duplicate activity ID: " ++ id⟩

/-- The resource-id loop of `validate_input` (lines 69–77). -/
def resourceScan (resources : List Resource) :
    List String × List ValidationError :=
  dupScan dupResErr (resources.map Resource.id) ([], [])

/-- One iteration of the task loop of `validate_input` (lines 83–106): the
duplicate-task-id check, the empty-task check, then the
duplicate-activity-id loop.  State: (task ids seen, activity ids seen,
errors). -/
def taskScanStep (acc : List String × List String × List ValidationError)
    (task : Task) : List String × List String × List ValidationError :=
  let tAcc : List String × List ValidationError :=
    if task.id ∈ acc.1 then (acc.1, acc.2.2 ++ [dupTaskErr task.id])
    else (task.id :: acc.1, acc.2.2)
  let errs1 : List ValidationError :=
    if task.activities.isEmpty then tAcc.2 ++ [emptyTaskErr task.id]
    else tAcc.2
  let aAcc := dupScan dupActErr (task.activities.map Activity.id)
    (acc.2.1, errs1)
  (tAcc.1, aAcc.1, aAcc.2)

/-- The task loop of `validate_input` (lines 80–106). -/
def taskScan (tasks : List Task) :
    List String × List String × List ValidationError :=
  tasks.foldl taskScanStep ([], [], [])

/-- The resource-reference loop of `validate_input` (lines 109–125). -/
def resourceRefErrors (tasks : List Task) (resource_ids : List String) :
    List ValidationError :=
  tasks.flatMap (fun t => t.activities.flatMap (fun act =>
    act.resource_requirements.flatMap (fun req =>
      (req.candidates.filter (fun c => c ∉ resource_ids)).map (fun c =>
        ⟨.InvalidResourceReference, "Activity \x27" ++ act.id
          ++ "\x27 references unknown resource \x27" ++ c ++ "\x27"⟩))))

/-- The predecessor-reference loop of `validate_input` (lines 128–142). -/
def predRefErrors (tasks : List Task) (activity_ids : List String) :
    List ValidationError :=
  tasks.flatMap (fun t => t.activities.flatMap (fun act =>
    (act.predecessors.filter (fun p => p ∉ activity_ids)).map (fun p =>
      ⟨.InvalidPredecessor, "Activity \x27" ++ act.id
        ++ "\x27 references unknown predecessor \x27" ++ p ++ "\x27"⟩)))

/-- The edge list of the precedence digraph built by `detect_cycles`
(lines 169–176): one edge `(pred, act.id)` per predecessor declaration. -/
def predAdj (tasks : List Task) : List (String × String) :=
  tasks.flatMap (fun t => t.activities.flatMap (fun act =>
    act.predecessors.map (fun pred => (pred, act.id))))

/-- `adj.get(node)`: the successors pushed for `node`, in push order. -/
def adjGet (tasks : List Task) (node : String) : List String :=
  (predAdj tasks).filterMap (fun p => if p.1 = node then some p.2 else none)

/-- All activity ids in traversal order. -/
def allActIdsList (tasks : List Task) : List String :=
  tasks.flatMap (fun t => t.activities.map Activity.id)

/-- The `all_ids` set of `detect_cycles`; the hash set's unspecified
iteration order is modelled as first-appearance order. -/
def allIds (tasks : List Task) : List String :=
  (allActIdsList tasks).dedup

/-- `has_cycle_dfs` (lines 194–216).  The mutable `visited` set is threaded
through the fold; `in_stack` behaves as a stack (inserted on entry, removed
on exit, untouched after a `true` early return, at which point the whole
search aborts), so it is passed as the current recursion path.  Rust's
unbounded recursion terminates because `visited` grows; here that is made
explicit with a fuel argument, and `detect_cycles` supplies fuel that is
proven sufficient.  Once the flag is `true` the remaining iterations leave
the accumulator unchanged, matching the early return.  `dfsStep` is one
iteration of the neighbor loop. -/
def dfsStep (visitF : String → List String → List String → List String × Bool)
    (stack1 : List String) (acc : List String × Bool) (next : String) :
    List String × Bool :=
  match acc with
  | (v, true) => (v, true)
  | (v, false) =>
      if next ∈ stack1 then (v, true)
      else if next ∈ v then (v, false)
      else visitF next stack1 v

def dfsVisit (adj : String → List String) :
    Nat → String → List String → List String → List String × Bool
  | 0, _, _, visited => (visited, false)
  | fuel + 1, node, stack, visited =>
      (adj node).foldl
        (dfsStep (fun n s v => dfsVisit adj fuel n s v) (node :: stack))
        (node :: visited, false)

/-- The node loop of `detect_cycles` (lines 182–189): skip visited nodes,
else run the DFS with an empty stack; report the start node on a cycle. -/
def detectCyclesGo (adj : String → List String) (fuel : Nat) :
    List String → List String → Option String
  | [], _ => none
  | node :: rest, visited =>
      if node ∈ visited then detectCyclesGo adj fuel rest visited
      else
        match dfsVisit adj fuel node [] visited with
        | (_, true) => some node
        | (v2, false) => detectCyclesGo adj fuel rest v2

/-- `detect_cycles` (lines 164–192). -/
def detect_cycles (tasks : List Task) : Option ValidationError :=
  match detectCyclesGo (adjGet tasks) ((allIds tasks).length + 1)
      (allIds tasks) [] with
  | some node => some ⟨.CyclicDependency,
      "Circular dependency detected involving activity \x27" ++ node
        ++ "\x27"⟩
  | none => none

/-- `validate_input` (lines 65–154): the phases push into one error vector,
modelled as the concatenation of the phase error lists in push order. -/
def validate_input (tasks : List Task) (resources : List Resource) :
    Except (List ValidationError) Unit :=
  let rs := resourceScan resources
  let ts := taskScan tasks
  let errors := rs.2 ++ ts.2.2 ++ resourceRefErrors tasks rs.1
    ++ predRefErrors tasks ts.2.1
    ++ (match detect_cycles tasks with | some e => [e] | none => [])
  if errors.isEmpty then Except.ok () else Except.error errors

/-- One step of the precedence digraph: an edge from `a` to `b`. -/
def adjStep (adj : String → List String) (a b : String) : Prop := b ∈ adj a

/-- DFS invariant: a finished (visited, off-stack) node reaches only
finished nodes. -/
def DfsInv (adj : String → List String) (visited stack : List String) :
    Prop :=
  ∀ u ∈ visited, u ∉ stack →
    ∀ w, Relation.ReflTransGen (adjStep adj) u w → w ∈ visited ∧ w ∉ stack

/-- DFS invariant: no finished node lies on a cycle. -/
def DfsNoCyc (adj : String → List String) (visited stack : List String) :
    Prop :=
  ∀ u ∈ visited, u ∉ stack → ¬ Relation.TransGen (adjStep adj) u u

/-- The number of ids not yet visited (the fuel measure). -/
def unvis (ids visited : List String) : Nat :=
  (ids.filter (fun x => x ∉ visited)).length

theorem filter_length_mono (p q : String → Bool)
    (hpq : ∀ x, p x = true → q x = true) :
    ∀ l : List String, (l.filter p).length ≤ (l.filter q).length := by
  intro l
  induction l with
  | nil => simp
  | cons a t ih =>
      simp only [List.filter_cons]
      cases hpa : p a with
      | true =>
          have hqa : q a = true := hpq a hpa
          simp only [hqa, if_true, List.length_cons]
          exact Nat.succ_le_succ ih
      | false =>
          cases hqa : q a with
          | true =>
              simp only [hqa, if_true, if_false, List.length_cons]
              exact Nat.le_trans ih (Nat.le_succ _)
          | false =>
              simpa using ih

theorem filter_length_lt (p q : String → Bool)
    (hpq : ∀ x, p x = true → q x = true) (node : String)
    (hq : q node = true) (hp : p node = false) :
    ∀ l : List String, node ∈ l →
      (l.filter p).length < (l.filter q).length := by
  intro l
  induction l with
  | nil => intro h; cases h
  | cons a t ih =>
      intro hmem
      simp only [List.filter_cons]
      by_cases ha : a = node
      · subst ha
        simp only [hp, hq, if_true, if_false, List.length_cons]
        exact Nat.lt_succ_of_le (filter_length_mono p q hpq t)
      · have hmem' : node ∈ t := by
          rcases List.mem_cons.1 hmem with h | h
          · exact absurd h.symm ha
          · exact h
        cases hpa : p a with
        | true =>
            have hqa : q a = true := hpq a hpa
            simp only [hqa, if_true, List.length_cons]
            exact Nat.succ_lt_succ (ih hmem')
        | false =>
            cases hqa : q a with
            | true =>
                simp only [hqa, if_true, if_false, List.length_cons]
                exact Nat.lt_succ_of_lt (ih hmem')
            | false =>
                simpa using ih hmem'

theorem unvis_mono (ids v1 v2 : List String) (hsub : ∀ x ∈ v1, x ∈ v2) :
    unvis ids v2 ≤ unvis ids v1 :=
  filter_length_mono _ _ (fun x hx => by
    simp only [decide_eq_true_eq] at hx ⊢
    exact fun hm => hx (hsub x hm)) ids

theorem unvis_insert_lt (ids : List String) (node : String)
    (visited : List String) (hmem : node ∈ ids) (hnv : node ∉ visited) :
    unvis ids (node :: visited) < unvis ids visited :=
  filter_length_lt _ _
    (fun x hx => by
      simp only [decide_eq_true_eq] at hx ⊢
      exact fun hm => hx (List.mem_cons_of_mem node hm))
    node (by simp [hnv]) (by simp) ids hmem

theorem chain_to_head (adj : String → List String) :
    ∀ (r : List String) (c : String),
      List.Chain' (fun a b => adjStep adj b a) (c :: r) →
      ∀ x ∈ c :: r, Relation.ReflTransGen (adjStep adj) x c := by
  intro r
  induction r with
  | nil =>
      intro c _ x hx
      rcases List.mem_cons.1 hx with h | h
      · subst h; exact Relation.ReflTransGen.refl
      · cases h
  | cons d r' ih =>
      intro c hc x hx
      have hcd : adjStep adj d c := (List.chain'_cons.1 hc).1
      have hc' : List.Chain' (fun a b => adjStep adj b a) (d :: r') :=
        (List.chain'_cons.1 hc).2
      rcases List.mem_cons.1 hx with h | h
      · subst h; exact Relation.ReflTransGen.refl
      · exact Relation.ReflTransGen.tail (ih d hc' x h) hcd

theorem foldl_step_true (f : List String × Bool → String → List String × Bool)
    (hf : ∀ v x, f (v, true) x = (v, true)) :
    ∀ (l : List String) (v : List String),
      l.foldl f (v, true) = (v, true) := by
  intro l
  induction l with
  | nil => intro v; rfl
  | cons x rest ih => intro v; simp only [List.foldl, hf]; exact ih v

theorem dfsStep_true
    (visitF : String → List String → List String → List String × Bool)
    (stack1 : List String) (v : List String) (x : String) :
    dfsStep visitF stack1 (v, true) x = (v, true) := rfl

theorem dfsVisit_spec (adj : String → List String) (ids : List String)
    (htargets : ∀ u v, v ∈ adj u → v ∈ ids) :
    ∀ (fuel : Nat) (node : String) (stack visited : List String),
      node ∈ ids → node ∉ stack → node ∉ visited →
      (∀ x ∈ stack, x ∈ visited) →
      List.Chain' (fun a b => adjStep adj b a) (node :: stack) →
      DfsInv adj visited stack →
      DfsNoCyc adj visited stack →
      unvis ids visited < fuel →
      (∀ x ∈ visited, x ∈ (dfsVisit adj fuel node stack visited).1) ∧
      node ∈ (dfsVisit adj fuel node stack visited).1 ∧
      ((dfsVisit adj fuel node stack visited).2 = true →
        ∃ v, Relation.TransGen (adjStep adj) v v) ∧
      ((dfsVisit adj fuel node stack visited).2 = false →
        DfsInv adj (dfsVisit adj fuel node stack visited).1 stack ∧
        DfsNoCyc adj (dfsVisit adj fuel node stack visited).1 stack) := by
  intro fuel
  induction fuel with
  | zero =>
      intro node stack visited _ _ _ _ _ _ _ hfu
      exact absurd hfu (Nat.not_lt_zero _)
  | succ fuel ih =>
      intro node stack visited hnid hnstk hnvis hstkvis hchain hinv hnocyc hfu
      have main : ∀ (l v0 V2 : List String) (r : Bool),
          (∀ x ∈ l, x ∈ adj node) →
          (∀ x ∈ node :: visited, x ∈ v0) →
          (∀ x ∈ node :: stack, x ∈ v0) →
          DfsInv adj v0 (node :: stack) →
          DfsNoCyc adj v0 (node :: stack) →
          unvis ids v0 < fuel →
          (∀ x ∈ adj node, x ∉ l → x ∈ v0 ∧ x ∉ node :: stack) →
          l.foldl (dfsStep (fun n s v => dfsVisit adj fuel n s v)
            (node :: stack)) (v0, false) = (V2, r) →
          (∀ x ∈ v0, x ∈ V2) ∧
          (r = true → ∃ v, Relation.TransGen (adjStep adj) v v) ∧
          (r = false → DfsInv adj V2 (node :: stack) ∧
            DfsNoCyc adj V2 (node :: stack) ∧
            ∀ x ∈ adj node, x ∈ V2 ∧ x ∉ node :: stack) := by
        intro l
        induction l with
        | nil =>
            intro v0 V2 r _ _ _ hinv0 hnocyc0 _ hq7 hfold
            simp only [List.foldl_nil] at hfold
            injection hfold with h1 h2
            subst h1; subst h2
            refine ⟨fun x hx => hx, ?_, ?_⟩
            · intro h; cases h
            · intro _
              exact ⟨hinv0, hnocyc0, fun x hx => hq7 x hx (by simp)⟩
        | cons x rest ihl =>
            intro v0 V2 r hl hgrow hstk hinv0 hnocyc0 hfu0 hq7 hfold
            rw [List.foldl_cons] at hfold
            have hxadj : x ∈ adj node := hl x (List.mem_cons_self x rest)
            by_cases hxs : x ∈ node :: stack
            · have hstep : dfsStep (fun n s v => dfsVisit adj fuel n s v)
                  (node :: stack) (v0, false) x = (v0, true) := by
                simp [dfsStep, hxs]
              rw [hstep, foldl_step_true _ (fun v y => rfl)] at hfold
              injection hfold with h1 h2
              subst h1; subst h2
              refine ⟨fun y hy => hy, ?_, ?_⟩
              · intro _
                refine ⟨x, Relation.TransGen.tail' ?_ hxadj⟩
                exact chain_to_head adj stack node hchain x hxs
              · intro h; cases h
            · by_cases hxv : x ∈ v0
              · have hstep : dfsStep (fun n s v => dfsVisit adj fuel n s v)
                    (node :: stack) (v0, false) x = (v0, false) := by
                  simp [dfsStep, hxs, hxv]
                rw [hstep] at hfold
                refine ihl v0 V2 r (fun y hy => hl y (List.mem_cons_of_mem x hy))
                  hgrow hstk hinv0 hnocyc0 hfu0 ?_ hfold
                intro y hy hyr
                by_cases hyx : y = x
                · subst hyx; exact ⟨hxv, hxs⟩
                · refine hq7 y hy ?_
                  intro hc
                  rcases List.mem_cons.1 hc with h | h
                  · exact hyx h
                  · exact hyr h
              · have hstep : dfsStep (fun n s v => dfsVisit adj fuel n s v)
                    (node :: stack) (v0, false) x
                    = dfsVisit adj fuel x (node :: stack) v0 := by
                  simp [dfsStep, hxs, hxv]
                obtain ⟨g1, g2, g3, g4⟩ := ih x (node :: stack) v0
                  (htargets node x hxadj) hxs hxv hstk
                  (List.chain'_cons.2 ⟨hxadj, hchain⟩) hinv0 hnocyc0 hfu0
                rcases hR2 : dfsVisit adj fuel x (node :: stack) v0
                  with ⟨v2, b2⟩
                rw [hR2] at hstep g1 g2 g3 g4
                rw [hstep] at hfold
                cases b2 with
                | true =>
                    rw [foldl_step_true _ (fun v y => rfl)] at hfold
                    injection hfold with h1 h2
                    subst h1; subst h2
                    exact ⟨fun y hy => g1 y hy, fun _ => g3 rfl,
                      fun h => by cases h⟩
                | false =>
                    obtain ⟨i2, n2⟩ := g4 rfl
                    have hq7n : ∀ y ∈ adj node, y ∉ rest →
                        y ∈ v2 ∧ y ∉ node :: stack := by
                      intro y hy hyr
                      by_cases hyx : y = x
                      · subst hyx; exact ⟨g2, hxs⟩
                      · have hold := hq7 y hy (by
                          intro hc
                          rcases List.mem_cons.1 hc with h | h
                          · exact hyx h
                          · exact hyr h)
                        exact ⟨g1 y hold.1, hold.2⟩
                    obtain ⟨d1, d2, d3⟩ := ihl v2 V2 r
                      (fun y hy => hl y (List.mem_cons_of_mem x hy))
                      (fun y hy => g1 y (hgrow y hy))
                      (fun y hy => g1 y (hstk y hy)) i2 n2
                      (Nat.lt_of_le_of_lt
                        (unvis_mono ids v0 v2 (fun y hy => g1 y hy)) hfu0)
                      hq7n hfold
                    exact ⟨fun y hy => d1 y (g1 y hy), d2, d3⟩
      rcases hR : dfsVisit adj (fuel + 1) node stack visited with ⟨V2, r⟩
      have hfold : (adj node).foldl
          (dfsStep (fun n s v => dfsVisit adj fuel n s v) (node :: stack))
          (node :: visited, false) = (V2, r) := hR
      have hinv1 : DfsInv adj (node :: visited) (node :: stack) := by
        intro u hu hustk w hw
        have hun : u ≠ node := fun h => hustk (h ▸ List.mem_cons_self node stack)
        have hu2 : u ∈ visited := by
          rcases List.mem_cons.1 hu with h | h
          · exact absurd h hun
          · exact h
        have hustk2 : u ∉ stack := fun h => hustk (List.mem_cons_of_mem node h)
        obtain ⟨hw1, hw2⟩ := hinv u hu2 hustk2 w hw
        refine ⟨List.mem_cons_of_mem node hw1, ?_⟩
        intro hc
        rcases List.mem_cons.1 hc with h | h
        · exact hnvis (h ▸ hw1)
        · exact hw2 h
      have hnocyc1 : DfsNoCyc adj (node :: visited) (node :: stack) := by
        intro u hu hustk hcyc
        have hun : u ≠ node := fun h => hustk (h ▸ List.mem_cons_self node stack)
        have hu2 : u ∈ visited := by
          rcases List.mem_cons.1 hu with h | h
          · exact absurd h hun
          · exact h
        have hustk2 : u ∉ stack := fun h => hustk (List.mem_cons_of_mem node h)
        exact hnocyc u hu2 hustk2 hcyc
      have hfu1 : unvis ids (node :: visited) < fuel := by
        have h1 := unvis_insert_lt ids node visited hnid hnvis
        omega
      obtain ⟨c1, c2, c3⟩ := main (adj node) (node :: visited) V2 r
        (fun y hy => hy) (fun y hy => hy)
        (by
          intro y hy
          rcases List.mem_cons.1 hy with h | h
          · exact h ▸ List.mem_cons_self node visited
          · exact List.mem_cons_of_mem node (hstkvis y h))
        hinv1 hnocyc1 hfu1 (fun y hy hny => absurd hy hny) hfold
      refine ⟨fun y hy => c1 y (List.mem_cons_of_mem node hy),
        c1 node (List.mem_cons_self node visited), c2, ?_⟩
      intro hrf
      obtain ⟨i2, n2, b2⟩ := c3 hrf
      constructor
      · intro u hu hustk w hw
        by_cases hun : u = node
        · subst hun
          rcases Relation.ReflTransGen.cases_head hw with hw0 | ⟨c, hc, hcw⟩
          · exact hw0 ▸ ⟨hu, hustk⟩
          · obtain ⟨hcV, hcS⟩ := b2 c hc
            obtain ⟨hw1, hw2⟩ := i2 c hcV hcS w hcw
            exact ⟨hw1, fun h => hw2 (List.mem_cons_of_mem u h)⟩
        · have hun2 : u ∉ node :: stack := by
            intro hc
            rcases List.mem_cons.1 hc with h | h
            · exact hun h
            · exact hustk h
          obtain ⟨hw1, hw2⟩ := i2 u hu hun2 w hw
          exact ⟨hw1, fun h => hw2 (List.mem_cons_of_mem node h)⟩
      · intro u hu hustk hcyc
        by_cases hun : u = node
        · subst hun
          obtain ⟨c, hc, hcu⟩ := Relation.TransGen.head'_iff.1 hcyc
          obtain ⟨hcV, hcS⟩ := b2 c hc
          obtain ⟨-, hn2⟩ := i2 c hcV hcS u hcu
          exact hn2 (List.mem_cons_self u stack)
        · have hun2 : u ∉ node :: stack := by
            intro hc
            rcases List.mem_cons.1 hc with h | h
            · exact hun h
            · exact hustk h
          exact n2 u hu hun2 hcyc

theorem detectCyclesGo_spec (adj : String → List String) (ids : List String)
    (htargets : ∀ u v, v ∈ adj u → v ∈ ids) (fuel : Nat) :
    ∀ (nodes visited : List String),
      (∀ n ∈ nodes, n ∈ ids) →
      DfsInv adj visited [] →
      DfsNoCyc adj visited [] →
      unvis ids visited < fuel →
      ((detectCyclesGo adj fuel nodes visited).isSome →
        ∃ v, Relation.TransGen (adjStep adj) v v) ∧
      (detectCyclesGo adj fuel nodes visited = none →
        ∃ V, (∀ x ∈ visited, x ∈ V) ∧ (∀ n ∈ nodes, n ∈ V) ∧
          DfsInv adj V [] ∧ DfsNoCyc adj V []) := by
  intro nodes
  induction nodes with
  | nil =>
      intro visited _ hinv hnocyc _
      refine ⟨?_, ?_⟩
      · intro h; simp [detectCyclesGo] at h
      · intro _
        exact ⟨visited, fun x hx => hx, fun n hn => absurd hn (List.not_mem_nil n),
          hinv, hnocyc⟩
  | cons node rest ihn =>
      intro visited hsub hinv hnocyc hfu
      by_cases hnv : node ∈ visited
      · have hstep : detectCyclesGo adj fuel (node :: rest) visited
            = detectCyclesGo adj fuel rest visited := by
          simp [detectCyclesGo, hnv]
        obtain ⟨s1, s2⟩ := ihn visited
          (fun n hn => hsub n (List.mem_cons_of_mem node hn)) hinv hnocyc hfu
        rw [hstep]
        refine ⟨s1, ?_⟩
        intro hnone
        obtain ⟨V, hv1, hv2, hv3, hv4⟩ := s2 hnone
        refine ⟨V, hv1, ?_, hv3, hv4⟩
        intro n hn
        rcases List.mem_cons.1 hn with h | h
        · exact h ▸ hv1 node hnv
        · exact hv2 n h
      · obtain ⟨g1, g2, g3, g4⟩ := dfsVisit_spec adj ids htargets fuel node []
          visited (hsub node (List.mem_cons_self node rest))
          (List.not_mem_nil node) hnv (fun x hx => absurd hx (List.not_mem_nil x))
          (List.chain'_singleton node)
          (by intro u hu _ w hw; exact ⟨(hinv u hu (List.not_mem_nil u) w hw).1,
            List.not_mem_nil w⟩)
          (fun u hu _ => hnocyc u hu (List.not_mem_nil u)) hfu
        rcases hR : dfsVisit adj fuel node [] visited with ⟨v2, b2⟩
        rw [hR] at g1 g2 g3 g4
        have hstep : detectCyclesGo adj fuel (node :: rest) visited
            = (match (v2, b2) with
               | (_, true) => some node
               | (w2, false) => detectCyclesGo adj fuel rest w2) := by
          simp only [detectCyclesGo, if_neg hnv, hR]
        cases b2 with
        | true =>
            refine ⟨fun _ => g3 rfl, ?_⟩
            intro hnone
            rw [hstep] at hnone
            simp at hnone
        | false =>
            obtain ⟨i2, n2⟩ := g4 rfl
            obtain ⟨s1, s2⟩ := ihn v2
              (fun n hn => hsub n (List.mem_cons_of_mem node hn))
              i2 n2
              (Nat.lt_of_le_of_lt (unvis_mono ids visited v2 g1) hfu)
            rw [hstep]
            refine ⟨s1, ?_⟩
            intro hnone
            obtain ⟨V, hv1, hv2, hv3, hv4⟩ := s2 hnone
            refine ⟨V, fun x hx => hv1 x (g1 x hx), ?_, hv3, hv4⟩
            intro n hn
            rcases List.mem_cons.1 hn with h | h
            · exact h ▸ hv1 node g2
            · exact hv2 n h

theorem adjGet_mem (tasks : List Task) (u v : String) :
    v ∈ adjGet tasks u ↔ (u, v) ∈ predAdj tasks := by
  simp only [adjGet, List.mem_filterMap]
  constructor
  · rintro ⟨p, hp, hpv⟩
    by_cases h : p.1 = u
    · rw [if_pos h] at hpv
      injection hpv with hv
      have : p = (u, v) := by
        cases p with
        | mk a b =>
            simp only at h hv
            rw [h, hv]
      exact this ▸ hp
    · rw [if_neg h] at hpv; cases hpv
  · intro hp
    exact ⟨(u, v), hp, by simp⟩

theorem predAdj_snd_mem (tasks : List Task) (u v : String) :
    (u, v) ∈ predAdj tasks → v ∈ allActIdsList tasks := by
  intro h
  simp only [predAdj, List.mem_flatMap, List.mem_map] at h
  obtain ⟨t, ht, act, hact, pred, hpred, heq⟩ := h
  injection heq with h1 h2
  simp only [allActIdsList, List.mem_flatMap]
  exact ⟨t, ht, List.mem_map.2 ⟨act, hact, h2⟩⟩

theorem unvis_nil (ids : List String) : unvis ids [] = ids.length := by
  simp [unvis]

/-- `detect_cycles` returns an error exactly when the precedence digraph
has a cycle. -/
theorem detect_cycles_spec (tasks : List Task) :
    (detect_cycles tasks = none ↔
      ¬ ∃ v, Relation.TransGen (adjStep (adjGet tasks)) v v) ∧
    (∀ e, detect_cycles tasks = some e →
      e.kind = ValidationErrorKind.CyclicDependency) := by
  have htargets : ∀ u v, v ∈ adjGet tasks u → v ∈ allIds tasks := by
    intro u v hv
    have := predAdj_snd_mem tasks u v ((adjGet_mem tasks u v).1 hv)
    simpa [allIds, List.mem_dedup] using this
  have hfu : unvis (allIds tasks) [] < (allIds tasks).length + 1 := by
    rw [unvis_nil]; omega
  obtain ⟨s1, s2⟩ := detectCyclesGo_spec (adjGet tasks) (allIds tasks) htargets
    ((allIds tasks).length + 1) (allIds tasks) [] (fun n hn => hn)
    (fun u hu => absurd hu (List.not_mem_nil u))
    (fun u hu => absurd hu (List.not_mem_nil u)) hfu
  constructor
  · constructor
    · intro hnone hcyc
      rcases hcyc with ⟨v, hv⟩
      have hdet : detectCyclesGo (adjGet tasks) ((allIds tasks).length + 1)
          (allIds tasks) [] = none := by
        by_cases h : (detectCyclesGo (adjGet tasks) ((allIds tasks).length + 1)
            (allIds tasks) []).isSome
        · exfalso
          unfold detect_cycles at hnone
          rcases hopt : detectCyclesGo (adjGet tasks)
              ((allIds tasks).length + 1) (allIds tasks) [] with _ | nd
          · rw [hopt] at h; simp at h
          · rw [hopt] at hnone; simp at hnone
        · exact Option.not_isSome_iff_eq_none.1 h
      obtain ⟨V, _, hall, _, hnocyc⟩ := s2 hdet
      obtain ⟨u, hru, huv⟩ := Relation.TransGen.tail'_iff.1 hv
      have hvids : v ∈ allIds tasks := htargets u v huv
      exact hnocyc v (hall v hvids) (List.not_mem_nil v) hv
    · intro hnc
      rcases hopt : detectCyclesGo (adjGet tasks) ((allIds tasks).length + 1)
          (allIds tasks) [] with _ | nd
      · unfold detect_cycles
        rw [hopt]
      · exfalso
        exact hnc (s1 (by rw [hopt]; rfl))
  · intro e he
    unfold detect_cycles at he
    rcases hopt : detectCyclesGo (adjGet tasks) ((allIds tasks).length + 1)
        (allIds tasks) [] with _ | nd
    · rw [hopt] at he; cases he
    · rw [hopt] at he
      injection he with he2
      rw [← he2]

theorem dupScan_spec (mk : String → ValidationError) :
    ∀ (ids : List String) (seen : List String)
      (errs : List ValidationError),
      (∀ x, x ∈ (dupScan mk ids (seen, errs)).1 ↔ x ∈ seen ∨ x ∈ ids) ∧
      ∃ new, (dupScan mk ids (seen, errs)).2 = errs ++ new ∧
        (new = [] ↔ (ids.Nodup ∧ ∀ x ∈ ids, x ∉ seen)) ∧
        (∀ e ∈ new, ∃ id, e = mk id) := by
  intro ids
  induction ids with
  | nil =>
      intro seen errs
      refine ⟨fun x => by simp [dupScan], [], by simp [dupScan], ?_, ?_⟩
      · simp
      · intro e he; cases he
  | cons id rest ih =>
      intro seen errs
      by_cases hmem : id ∈ seen
      · have hstep : dupScan mk (id :: rest) (seen, errs)
            = dupScan mk rest (seen, errs ++ [mk id]) := by
          simp [dupScan, hmem]
        obtain ⟨hm, new, hnew, hiff, hkind⟩ := ih seen (errs ++ [mk id])
        rw [hstep]
        refine ⟨?_, mk id :: new, ?_, ?_, ?_⟩
        · intro x
          rw [hm x]
          constructor
          · rintro (h | h)
            · exact Or.inl h
            · exact Or.inr (List.mem_cons_of_mem id h)
          · rintro (h | h)
            · exact Or.inl h
            · rcases List.mem_cons.1 h with h | h
              · subst h; exact Or.inl hmem
              · exact Or.inr h
        · rw [hnew]; simp
        · constructor
          · intro h; cases h
          · rintro ⟨-, hfresh⟩
            exact absurd hmem (hfresh id (List.mem_cons_self id rest))
        · intro e he
          rcases List.mem_cons.1 he with h | h
          · exact ⟨id, h⟩
          · exact hkind e h
      · have hstep : dupScan mk (id :: rest) (seen, errs)
            = dupScan mk rest (id :: seen, errs) := by
          simp [dupScan, hmem]
        obtain ⟨hm, new, hnew, hiff, hkind⟩ := ih (id :: seen) errs
        rw [hstep]
        refine ⟨?_, new, hnew, ?_, hkind⟩
        · intro x
          rw [hm x]
          constructor
          · rintro (h | h)
            · rcases List.mem_cons.1 h with h | h
              · subst h; exact Or.inr (List.mem_cons_self x rest)
              · exact Or.inl h
            · exact Or.inr (List.mem_cons_of_mem id h)
          · rintro (h | h)
            · exact Or.inl (List.mem_cons_of_mem id h)
            · rcases List.mem_cons.1 h with h | h
              · subst h; exact Or.inl (List.mem_cons_self x seen)
              · exact Or.inr h
        · rw [hiff]
          constructor
          · rintro ⟨hnd, hfresh⟩
            refine ⟨List.nodup_cons.2 ⟨?_, hnd⟩, ?_⟩
            · intro hc
              exact (hfresh id hc) (List.mem_cons_self id seen)
            · intro x hx
              rcases List.mem_cons.1 hx with h | h
              · subst h; exact hmem
              · intro hc
                exact (hfresh x h) (List.mem_cons_of_mem id hc)
          · rintro ⟨hnd, hfresh⟩
            refine ⟨(List.nodup_cons.1 hnd).2, ?_⟩
            intro x hx hc
            rcases List.mem_cons.1 hc with h | h
            · subst h; exact (List.nodup_cons.1 hnd).1 hx
            · exact (hfresh x (List.mem_cons_of_mem id hx)) h

theorem forall_notmem_symm (l1 l2 : List String) :
    (∀ x ∈ l1, x ∉ l2) ↔ (∀ x ∈ l2, x ∉ l1) := by
  constructor <;> exact fun h x hx hc => h x hc hx

theorem forall_notmem_or (l s t : List String) :
    (∀ x ∈ l, ¬(x ∈ s ∨ x ∈ t)) ↔
      ((∀ x ∈ l, x ∉ s) ∧ ∀ x ∈ l, x ∉ t) := by
  constructor
  · intro h
    exact ⟨fun x hx hc => h x hx (Or.inl hc), fun x hx hc => h x hx (Or.inr hc)⟩
  · rintro ⟨h1, h2⟩ x hx hc
    rcases hc with hc | hc
    · exact h1 x hx hc
    · exact h2 x hx hc

theorem forall_notmem_oreq (l s : List String) (a : String) :
    (∀ x ∈ l, ¬(x ∈ s ∨ x = a)) ↔
      ((∀ x ∈ l, x ∉ s) ∧ a ∉ l) := by
  constructor
  · intro h
    refine ⟨fun x hx hc => h x hx (Or.inl hc), fun hc => h a hc (Or.inr rfl)⟩
  · rintro ⟨h1, h2⟩ x hx hc
    rcases hc with hc | hc
    · exact h1 x hx hc
    · exact h2 (hc ▸ hx)

theorem taskScanStep_eq (seenT seenA : List String)
    (errs : List ValidationError) (task : Task) :
    taskScanStep (seenT, seenA, errs) task
      = ((if task.id ∈ seenT then seenT else task.id :: seenT),
         (dupScan dupActErr (task.activities.map Activity.id)
           (seenA, errs
             ++ (if task.id ∈ seenT then [dupTaskErr task.id] else [])
             ++ (if task.activities.isEmpty then [emptyTaskErr task.id]
                 else []))).1,
         (dupScan dupActErr (task.activities.map Activity.id)
           (seenA, errs
             ++ (if task.id ∈ seenT then [dupTaskErr task.id] else [])
             ++ (if task.activities.isEmpty then [emptyTaskErr task.id]
                 else []))).2) := by
  by_cases h1 : task.id ∈ seenT <;>
    by_cases h2 : task.activities.isEmpty <;>
      simp [taskScanStep, h1, h2]

set_option maxHeartbeats 1600000 in
theorem taskScanGo_spec :
    ∀ (tasks : List Task) (seenT seenA : List String)
      (errs : List ValidationError),
      (∀ x, x ∈ (tasks.foldl taskScanStep (seenT, seenA, errs)).1 ↔
        x ∈ seenT ∨ x ∈ tasks.map Task.id) ∧
      (∀ x, x ∈ (tasks.foldl taskScanStep (seenT, seenA, errs)).2.1 ↔
        x ∈ seenA ∨ x ∈ allActIdsList tasks) ∧
      ∃ new, (tasks.foldl taskScanStep (seenT, seenA, errs)).2.2
          = errs ++ new ∧
        ((∀ e ∈ new, e.kind ≠ ValidationErrorKind.DuplicateId) ↔
          ((tasks.map Task.id).Nodup ∧ (∀ x ∈ tasks.map Task.id, x ∉ seenT)
            ∧ (allActIdsList tasks).Nodup
            ∧ (∀ x ∈ allActIdsList tasks, x ∉ seenA))) ∧
        ((∀ e ∈ new, e.kind ≠ ValidationErrorKind.EmptyTask) ↔
          (∀ t ∈ tasks, t.activities ≠ [])) ∧
        (∀ e ∈ new, e.kind = ValidationErrorKind.DuplicateId
          ∨ e.kind = ValidationErrorKind.EmptyTask) := by
  intro tasks
  induction tasks with
  | nil =>
      intro seenT seenA errs
      refine ⟨fun x => by simp, fun x => by simp [allActIdsList], [], by simp,
        ?_, ?_, ?_⟩
      · simp [allActIdsList]
      · simp
      · intro e he; cases he
  | cons task rest ihn =>
      intro seenT seenA errs
      rw [List.foldl_cons, taskScanStep_eq]
      rcases hD : dupScan dupActErr (task.activities.map Activity.id)
          (seenA, errs
            ++ (if task.id ∈ seenT then [dupTaskErr task.id] else [])
            ++ (if task.activities.isEmpty then [emptyTaskErr task.id]
                else [])) with ⟨A2, E3⟩
      obtain ⟨hmA3, new3, hnew3, hiff3, hkind3⟩ :=
        dupScan_spec dupActErr (task.activities.map Activity.id) seenA
          (errs ++ (if task.id ∈ seenT then [dupTaskErr task.id] else [])
            ++ (if task.activities.isEmpty then [emptyTaskErr task.id]
                else []))
      rw [hD] at hmA3 hnew3
      dsimp only at hmA3 hnew3
      dsimp only
      obtain ⟨ihmT, ihmA, newR, hnewR, hdupR, hempR, hkindR⟩ :=
        ihn (if task.id ∈ seenT then seenT else task.id :: seenT) A2 E3
      have hT'mem : ∀ x,
          (x ∈ (if task.id ∈ seenT then seenT else task.id :: seenT) ↔
            (x ∈ seenT ∨ x = task.id)) := by
        by_cases h : task.id ∈ seenT
        · simp only [if_pos h]
          intro x
          constructor
          · exact Or.inl
          · rintro (hx | rfl)
            · exact hx
            · exact h
        · simp only [if_neg h, List.mem_cons]
          intro x
          tauto
      have he1kind : ∀ e ∈ (if task.id ∈ seenT then [dupTaskErr task.id]
          else []), e.kind = ValidationErrorKind.DuplicateId := by
        by_cases h : task.id ∈ seenT <;> simp [h, dupTaskErr]
      have he1iff : ((∀ e ∈ (if task.id ∈ seenT then [dupTaskErr task.id]
          else []), e.kind ≠ ValidationErrorKind.DuplicateId) ↔
          task.id ∉ seenT) := by
        by_cases h : task.id ∈ seenT <;> simp [h, dupTaskErr]
      have he2kind : ∀ e ∈ (if task.activities.isEmpty then
          [emptyTaskErr task.id] else []),
          e.kind = ValidationErrorKind.EmptyTask := by
        by_cases h : task.activities.isEmpty <;> simp [h, emptyTaskErr]
      have he2iff : ((∀ e ∈ (if task.activities.isEmpty then
          [emptyTaskErr task.id] else []),
          e.kind ≠ ValidationErrorKind.EmptyTask) ↔
          task.activities ≠ []) := by
        by_cases h : task.activities.isEmpty
        · have hnil : task.activities = [] := List.isEmpty_iff.1 h
          simp [h, emptyTaskErr, hnil]
        · have hnil : task.activities ≠ [] := by
            intro hc
            rw [hc] at h
            exact h rfl
          simp [h, hnil]
      have hnew3nil : ((∀ e ∈ new3,
          e.kind ≠ ValidationErrorKind.DuplicateId) ↔ new3 = []) := by
        constructor
        · intro h
          cases hn3 : new3 with
          | nil => rfl
          | cons e t =>
              obtain ⟨id, hid⟩ := hkind3 e (hn3 ▸ List.mem_cons_self e t)
              have := h e (hn3 ▸ List.mem_cons_self e t)
              rw [hid] at this
              exact absurd rfl this
        · intro h; rw [h]; intro e he; cases he
      refine ⟨?_, ?_,
        (if task.id ∈ seenT then [dupTaskErr task.id] else [])
          ++ (if task.activities.isEmpty then [emptyTaskErr task.id] else [])
          ++ new3 ++ newR, ?_, ?_, ?_, ?_⟩
      · intro x
        rw [ihmT x, hT'mem x]
        simp only [List.map_cons, List.mem_cons]
        tauto
      · intro x
        rw [ihmA x, hmA3 x]
        simp only [allActIdsList, List.flatMap_cons, List.mem_append]
        tauto
      · rw [hnewR, hnew3]
        simp [List.append_assoc]
      · rw [List.forall_mem_append, List.forall_mem_append,
          List.forall_mem_append, he1iff, hnew3nil.trans hiff3, hdupR]
        have he2dup : (∀ e ∈ (if task.activities.isEmpty then
            [emptyTaskErr task.id] else []),
            e.kind ≠ ValidationErrorKind.DuplicateId) := by
          intro e he
          rw [he2kind e he]
          intro h; cases h
        have hfreshT : (∀ x ∈ List.map Task.id rest,
            x ∉ (if task.id ∈ seenT then seenT else task.id :: seenT)) ↔
            ((∀ x ∈ List.map Task.id rest, x ∉ seenT)
              ∧ task.id ∉ List.map Task.id rest) := by
          rw [← forall_notmem_oreq]
          constructor
          · intro h x hx hc
            exact h x hx ((hT'mem x).2 hc)
          · intro h x hx hc
            exact h x hx ((hT'mem x).1 hc)
        have hfreshA : (∀ x ∈ allActIdsList rest, x ∉ A2) ↔
            ((∀ x ∈ allActIdsList rest, x ∉ seenA)
              ∧ ∀ x ∈ allActIdsList rest,
                  x ∉ task.activities.map Activity.id) := by
          rw [← forall_notmem_or]
          constructor
          · intro h x hx hc
            exact h x hx ((hmA3 x).2 hc)
          · intro h x hx hc
            exact h x hx ((hmA3 x).1 hc)
        rw [hfreshT, hfreshA]
        simp only [List.map_cons, List.nodup_cons, List.forall_mem_cons,
          allActIdsList, List.flatMap_cons, List.nodup_append,
          List.forall_mem_append]
        constructor
        · rintro ⟨⟨⟨hP1, -⟩, hN3, hF3⟩, hR1, ⟨hR2a, hR2b⟩, hR3, hR4a, hR4b⟩
          exact ⟨⟨hR2b, hR1⟩, ⟨hP1, hR2a⟩, ⟨hN3, hR3,
            fun a ha hc => hR4b a hc ha⟩, hF3, hR4a⟩
        · rintro ⟨⟨hR2b, hR1⟩, ⟨hP1, hR2a⟩, ⟨hN3, hR3, hD⟩, hF3, hR4a⟩
          exact ⟨⟨⟨hP1, he2dup⟩, hN3, hF3⟩, hR1, ⟨hR2a, hR2b⟩, hR3, hR4a,
            fun a ha hc => hD hc ha⟩
      · rw [List.forall_mem_append, List.forall_mem_append,
          List.forall_mem_append, he2iff, hempR]
        have he1emp : (∀ e ∈ (if task.id ∈ seenT then [dupTaskErr task.id]
            else []), e.kind ≠ ValidationErrorKind.EmptyTask) := by
          intro e he
          rw [he1kind e he]
          intro h; cases h
        have he3emp : (∀ e ∈ new3,
            e.kind ≠ ValidationErrorKind.EmptyTask) := by
          intro e he
          obtain ⟨id, hid⟩ := hkind3 e he
          rw [hid]
          intro h; cases h
        simp only [List.forall_mem_cons]
        constructor
        · rintro ⟨⟨⟨-, h2⟩, -⟩, h4⟩
          exact ⟨h2, h4⟩
        · rintro ⟨h1, h2⟩
          exact ⟨⟨⟨he1emp, h1⟩, he3emp⟩, h2⟩
      · intro e he
        rcases List.mem_append.1 he with he | he
        · rcases List.mem_append.1 he with he | he
          · rcases List.mem_append.1 he with he | he
            · exact Or.inl (he1kind e he)
            · exact Or.inr (he2kind e he)
          · obtain ⟨id, hid⟩ := hkind3 e he
            rw [hid]
            exact Or.inl rfl
        · exact hkindR e he

theorem resourceRefErrors_spec (tasks : List Task) (rids : List String) :
    (resourceRefErrors tasks rids = [] ↔
      ∀ t ∈ tasks, ∀ a ∈ t.activities, ∀ req ∈ a.resource_requirements,
        ∀ c ∈ req.candidates, c ∈ rids) ∧
    (∀ e ∈ resourceRefErrors tasks rids,
      e.kind = ValidationErrorKind.InvalidResourceReference) := by
  constructor
  · simp only [resourceRefErrors, List.flatMap_eq_nil_iff,
      List.map_eq_nil_iff, List.filter_eq_nil_iff, decide_eq_true_eq,
      not_not]
  · intro e he
    simp only [resourceRefErrors, List.mem_flatMap, List.mem_map] at he
    obtain ⟨t, -, a, -, req, -, c, -, heq⟩ := he
    rw [← heq]

theorem predRefErrors_spec (tasks : List Task) (aids : List String) :
    (predRefErrors tasks aids = [] ↔
      ∀ t ∈ tasks, ∀ a ∈ t.activities, ∀ p ∈ a.predecessors, p ∈ aids) ∧
    (∀ e ∈ predRefErrors tasks aids,
      e.kind = ValidationErrorKind.InvalidPredecessor) := by
  constructor
  · simp only [predRefErrors, List.flatMap_eq_nil_iff, List.map_eq_nil_iff,
      List.filter_eq_nil_iff, decide_eq_true_eq, not_not]
  · intro e he
    simp only [predRefErrors, List.mem_flatMap, List.mem_map] at he
    obtain ⟨t, -, a, -, p, -, heq⟩ := he
    rw [← heq]

set_option maxHeartbeats 6400000 in
/-- C1: `validate_input(tasks, resources)` returns success if and only if
(a) resource, task and activity identifiers are each unique within their
namespaces, (b) every task has at least one activity, (c) every requirement
candidate resolves to a resource and every predecessor resolves to an
activity, and (d) the precedence digraph over the activities is acyclic;
and on failure the returned vector is nonempty and contains an error of
the kind of every failing check. -/
theorem validate_input_ok_iff (tasks : List Task) (resources : List Resource) :
    (validate_input tasks resources = Except.ok () ↔
      ((resources.map Resource.id).Nodup
        ∧ (tasks.map Task.id).Nodup
        ∧ (allActIdsList tasks).Nodup
        ∧ (∀ t ∈ tasks, t.activities ≠ [])
        ∧ (∀ t ∈ tasks, ∀ a ∈ t.activities,
            ∀ req ∈ a.resource_requirements,
              ∀ c ∈ req.candidates, c ∈ resources.map Resource.id)
        ∧ (∀ t ∈ tasks, ∀ a ∈ t.activities, ∀ p ∈ a.predecessors,
            p ∈ allActIdsList tasks)
        ∧ ¬ ∃ v, Relation.TransGen
            (fun a b => (a, b) ∈ predAdj tasks) v v))
    ∧ (∀ errs, validate_input tasks resources = Except.error errs →
        errs ≠ []
        ∧ (¬((resources.map Resource.id).Nodup ∧ (tasks.map Task.id).Nodup
              ∧ (allActIdsList tasks).Nodup) →
            ∃ e ∈ errs, e.kind = ValidationErrorKind.DuplicateId)
        ∧ ((∃ t ∈ tasks, t.activities = []) →
            ∃ e ∈ errs, e.kind = ValidationErrorKind.EmptyTask)
        ∧ ((¬ ∀ t ∈ tasks, ∀ a ∈ t.activities,
              ∀ req ∈ a.resource_requirements,
                ∀ c ∈ req.candidates, c ∈ resources.map Resource.id) →
            ∃ e ∈ errs, e.kind = ValidationErrorKind.InvalidResourceReference)
        ∧ ((¬ ∀ t ∈ tasks, ∀ a ∈ t.activities, ∀ p ∈ a.predecessors,
              p ∈ allActIdsList tasks) →
            ∃ e ∈ errs, e.kind = ValidationErrorKind.InvalidPredecessor)
        ∧ ((∃ v, Relation.TransGen
              (fun a b => (a, b) ∈ predAdj tasks) v v) →
            ∃ e ∈ errs, e.kind = ValidationErrorKind.CyclicDependency)) := by
  obtain ⟨hmR, newRes, hnewRes, hiffRes, hkindRes⟩ :=
    dupScan_spec dupResErr (resources.map Resource.id) [] []
  have hR2 : (resourceScan resources).2 = newRes := by
    show (dupScan dupResErr (resources.map Resource.id) ([], [])).2 = newRes
    rw [hnewRes]
    simp
  have hR1mem : ∀ x, x ∈ (resourceScan resources).1 ↔
      x ∈ resources.map Resource.id := by
    intro x
    have := hmR x
    simpa [resourceScan] using this
  obtain ⟨hmT, hmA, newT, hnewT, hdupT, hempT, hkindT⟩ :=
    taskScanGo_spec tasks [] [] []
  have hT2 : (taskScan tasks).2.2 = newT := by
    show (List.foldl taskScanStep ([], [], []) tasks).2.2 = newT
    rw [hnewT]
    simp
  have hAmem : ∀ x, x ∈ (taskScan tasks).2.1 ↔ x ∈ allActIdsList tasks := by
    intro x
    have := hmA x
    simpa [taskScan] using this
  have hResIff : newRes = [] ↔ (resources.map Resource.id).Nodup := by
    rw [hiffRes]; simp
  have hdupT2 : (∀ e ∈ newT, e.kind ≠ ValidationErrorKind.DuplicateId) ↔
      ((tasks.map Task.id).Nodup ∧ (allActIdsList tasks).Nodup) := by
    rw [hdupT]; simp
  have hnewTnil : newT = [] ↔
      ((∀ e ∈ newT, e.kind ≠ ValidationErrorKind.DuplicateId)
        ∧ (∀ e ∈ newT, e.kind ≠ ValidationErrorKind.EmptyTask)) := by
    constructor
    · intro h; rw [h]; simp
    · rintro ⟨h1, h2⟩
      cases hn : newT with
      | nil => rfl
      | cons e t =>
          rcases hkindT e (hn ▸ List.mem_cons_self e t) with hk | hk
          · exact absurd hk (h1 e (hn ▸ List.mem_cons_self e t))
          · exact absurd hk (h2 e (hn ▸ List.mem_cons_self e t))
  obtain ⟨hrefIff, hrefKind⟩ :=
    resourceRefErrors_spec tasks (resourceScan resources).1
  have hrefIff2 : resourceRefErrors tasks (resourceScan resources).1 = [] ↔
      (∀ t ∈ tasks, ∀ a ∈ t.activities, ∀ req ∈ a.resource_requirements,
        ∀ c ∈ req.candidates, c ∈ resources.map Resource.id) := by
    rw [hrefIff]
    constructor
    · intro h t ht a ha req hreq c hc
      exact (hR1mem c).1 (h t ht a ha req hreq c hc)
    · intro h t ht a ha req hreq c hc
      exact (hR1mem c).2 (h t ht a ha req hreq c hc)
  obtain ⟨hpredIff, hpredKind⟩ :=
    predRefErrors_spec tasks (taskScan tasks).2.1
  have hpredIff2 : predRefErrors tasks (taskScan tasks).2.1 = [] ↔
      (∀ t ∈ tasks, ∀ a ∈ t.activities, ∀ p ∈ a.predecessors,
        p ∈ allActIdsList tasks) := by
    rw [hpredIff]
    constructor
    · intro h t ht a ha p hp
      exact (hAmem p).1 (h t ht a ha p hp)
    · intro h t ht a ha p hp
      exact (hAmem p).2 (h t ht a ha p hp)
  obtain ⟨hcycIff, hcycKind⟩ := detect_cycles_spec tasks
  have hrel : (∃ v, Relation.TransGen (adjStep (adjGet tasks)) v v) ↔
      (∃ v, Relation.TransGen (fun a b => (a, b) ∈ predAdj tasks) v v) :=
    exists_congr (fun v =>
      ⟨Relation.TransGen.mono (fun a b h => (adjGet_mem tasks a b).1 h),
       Relation.TransGen.mono (fun a b h => (adjGet_mem tasks a b).2 h)⟩)
  have hcyc : ((match detect_cycles tasks with
        | some e => [e]
        | none => ([] : List ValidationError)) = [] ↔
      ¬ ∃ v, Relation.TransGen (fun a b => (a, b) ∈ predAdj tasks) v v) ∧
      (∀ e ∈ (match detect_cycles tasks with
        | some e => [e]
        | none => ([] : List ValidationError)),
        e.kind = ValidationErrorKind.CyclicDependency) := by
    rcases hd : detect_cycles tasks with _ | e0
    · have hnone := hcycIff.1 hd
      refine ⟨⟨fun _ => ?_, fun _ => rfl⟩, fun e he => absurd he
        (List.not_mem_nil e)⟩
      rw [← hrel]
      exact hnone
    · refine ⟨⟨fun h => absurd h (List.cons_ne_nil e0 []), fun hnc => ?_⟩,
        fun e2 he2 => ?_⟩
      · exfalso
        have hne : ¬ detect_cycles tasks = none := by rw [hd]; simp
        have hcy : ∃ v, Relation.TransGen (adjStep (adjGet tasks)) v v := by
          by_contra hno
          exact hne (hcycIff.2 hno)
        exact hnc (hrel.1 hcy)
      · have he3 : e2 = e0 := by
          rcases List.mem_cons.1 he2 with h | h
          · exact h
          · exact absurd h (List.not_mem_nil e2)
        rw [he3]
        exact hcycKind e0 hd
  have hval : validate_input tasks resources
      = (if (newRes ++ newT
            ++ resourceRefErrors tasks (resourceScan resources).1
            ++ predRefErrors tasks (taskScan tasks).2.1
            ++ (match detect_cycles tasks with
                | some e => [e]
                | none => ([] : List ValidationError))).isEmpty
         then Except.ok ()
         else Except.error (newRes ++ newT
            ++ resourceRefErrors tasks (resourceScan resources).1
            ++ predRefErrors tasks (taskScan tasks).2.1
            ++ (match detect_cycles tasks with
                | some e => [e]
                | none => ([] : List ValidationError)))) := by
    rw [show validate_input tasks resources
        = (if ((resourceScan resources).2 ++ (taskScan tasks).2.2
              ++ resourceRefErrors tasks (resourceScan resources).1
              ++ predRefErrors tasks (taskScan tasks).2.1
              ++ (match detect_cycles tasks with
                  | some e => [e]
                  | none => ([] : List ValidationError))).isEmpty
           then Except.ok ()
           else Except.error ((resourceScan resources).2
              ++ (taskScan tasks).2.2
              ++ resourceRefErrors tasks (resourceScan resources).1
              ++ predRefErrors tasks (taskScan tasks).2.1
              ++ (match detect_cycles tasks with
                  | some e => [e]
                  | none => ([] : List ValidationError)))) from rfl,
      hR2, hT2]
  constructor
  · rw [hval]
    by_cases hE : (newRes ++ newT
        ++ resourceRefErrors tasks (resourceScan resources).1
        ++ predRefErrors tasks (taskScan tasks).2.1
        ++ (match detect_cycles tasks with
            | some e => [e]
            | none => ([] : List ValidationError))).isEmpty
    · rw [if_pos hE]
      have hEnil := List.isEmpty_iff.1 hE
      simp only [List.append_eq_nil] at hEnil
      obtain ⟨⟨⟨⟨h1, h2⟩, h3⟩, h4⟩, h5⟩ := hEnil
      constructor
      · intro _
        refine ⟨hResIff.1 h1, ?_, ?_, ?_, hrefIff2.1 h3, hpredIff2.1 h4,
          hcyc.1.1 h5⟩
        · exact (hdupT2.1 (hnewTnil.1 h2).1).1
        · exact (hdupT2.1 (hnewTnil.1 h2).1).2
        · exact hempT.1 (hnewTnil.1 h2).2
      · intro _; rfl
    · rw [if_neg hE]
      constructor
      · intro h; cases h
      · rintro ⟨h1, h2, h3, h4, h5, h6, h7⟩
        exfalso
        apply hE
        rw [hResIff.2 h1,
          hnewTnil.2 ⟨hdupT2.2 ⟨h2, h3⟩, hempT.2 h4⟩,
          hrefIff2.2 h5, hpredIff2.2 h6, hcyc.1.2 h7]
        rfl
  · intro errs herr
    rw [hval] at herr
    by_cases hE : (newRes ++ newT
        ++ resourceRefErrors tasks (resourceScan resources).1
        ++ predRefErrors tasks (taskScan tasks).2.1
        ++ (match detect_cycles tasks with
            | some e => [e]
            | none => ([] : List ValidationError))).isEmpty
    · rw [if_pos hE] at herr; cases herr
    · rw [if_neg hE] at herr
      injection herr with herrs
      have hinc1 : ∀ e ∈ newRes, e ∈ errs := by
        intro e he
        rw [← herrs]
        simp only [List.mem_append]
        exact Or.inl (Or.inl (Or.inl (Or.inl he)))
      have hinc2 : ∀ e ∈ newT, e ∈ errs := by
        intro e he
        rw [← herrs]
        simp only [List.mem_append]
        exact Or.inl (Or.inl (Or.inl (Or.inr he)))
      have hinc3 : ∀ e ∈ resourceRefErrors tasks (resourceScan resources).1,
          e ∈ errs := by
        intro e he
        rw [← herrs]
        simp only [List.mem_append]
        exact Or.inl (Or.inl (Or.inr he))
      have hinc4 : ∀ e ∈ predRefErrors tasks (taskScan tasks).2.1,
          e ∈ errs := by
        intro e he
        rw [← herrs]
        simp only [List.mem_append]
        exact Or.inl (Or.inr he)
      have hinc5 : ∀ e ∈ (match detect_cycles tasks with
          | some e => [e]
          | none => ([] : List ValidationError)), e ∈ errs := by
        intro e he
        rw [← herrs]
        simp only [List.mem_append]
        exact Or.inr he
      refine ⟨?_, ?_, ?_, ?_, ?_, ?_⟩
      · intro hen
        apply hE
        rw [← herrs] at hen
        rw [hen]
        rfl
      · intro hfail
        by_cases hres : (resources.map Resource.id).Nodup
        · have hnall : ¬(∀ e ∈ newT,
              e.kind ≠ ValidationErrorKind.DuplicateId) := by
            intro hall
            obtain ⟨ha, hb⟩ := hdupT2.1 hall
            exact hfail ⟨hres, ha, hb⟩
          push_neg at hnall
          obtain ⟨e, he, hke⟩ := hnall
          exact ⟨e, hinc2 e he, hke⟩
        · have hnr : newRes ≠ [] := fun h => hres (hResIff.1 h)
          cases hn : newRes with
          | nil => exact absurd hn hnr
          | cons e t =>
              have hm : e ∈ newRes := hn ▸ List.mem_cons_self e t
              obtain ⟨id, hid⟩ := hkindRes e hm
              refine ⟨e, hinc1 e hm, ?_⟩
              rw [hid]
              rfl
      · rintro ⟨t, ht, hte⟩
        have hnall : ¬(∀ e ∈ newT,
            e.kind ≠ ValidationErrorKind.EmptyTask) := by
          intro hall
          exact (hempT.1 hall t ht) hte
        push_neg at hnall
        obtain ⟨e, he, hke⟩ := hnall
        exact ⟨e, hinc2 e he, hke⟩
      · intro hfail
        have hne : resourceRefErrors tasks (resourceScan resources).1 ≠ [] :=
          fun h => hfail (hrefIff2.1 h)
        cases hn : resourceRefErrors tasks (resourceScan resources).1 with
        | nil => exact absurd hn hne
        | cons e t =>
            have hm : e ∈ resourceRefErrors tasks (resourceScan resources).1 :=
              hn ▸ List.mem_cons_self e t
            exact ⟨e, hinc3 e hm, hrefKind e hm⟩
      · intro hfail
        have hne : predRefErrors tasks (taskScan tasks).2.1 ≠ [] :=
          fun h => hfail (hpredIff2.1 h)
        cases hn : predRefErrors tasks (taskScan tasks).2.1 with
        | nil => exact absurd hn hne
        | cons e t =>
            have hm : e ∈ predRefErrors tasks (taskScan tasks).2.1 :=
              hn ▸ List.mem_cons_self e t
            exact ⟨e, hinc4 e hm, hpredKind e hm⟩
      · intro hcy
        have hne : (match detect_cycles tasks with
            | some e => [e]
            | none => ([] : List ValidationError)) ≠ [] :=
          fun h => (hcyc.1.1 h) hcy
        cases hn : (match detect_cycles tasks with
            | some e => [e]
            | none => ([] : List ValidationError)) with
        | nil => exact absurd hn hne
        | cons e t =>
            have hm : e ∈ (match detect_cycles tasks with
                | some e => [e]
                | none => ([] : List ValidationError)) :=
              hn ▸ List.mem_cons_self e t
            exact ⟨e, hinc5 e hm, hcyc.2 e hm⟩

end USchedule
